import Mathlib

/-!
# Verified model of the Linear/Obsidian sync core

A shallow embedding of the plugin's synchronization core:

* the frontmatter codec (`parseFrontmatter` / `updateFrontmatter` from
  `src/utils/frontmatter.ts`),
* the conflict detector and resolver (`src/features/conflict-resolver.ts`),
* the sync merge step (`updateNoteWithIssue` from `src/sync/sync-manager.ts`),
* the local configuration resolver (`LocalConfigManager`),
* the structured-text parser (`MarkdownParser` and the issue modal's
  inline-expression parser).

Modelling conventions:

* JS strings are `List Char` (`Str`); regular-expression behaviour of the
  concrete patterns appearing in the source is translated into explicit
  scanning functions, including the greedy/lazy behaviour of each pattern.
* ISO-8601 timestamps compared through `new Date(..)` are modelled as `Nat`
  epoch values (valid dates are assumed; invalid date strings are out of
  scope of the model).
* JS numbers produced by `parseInt`/`parseFloat` on `^\d+$` / `^\d+\.\d+$`
  matches are idealized as exact naturals and exact decimal fractions.
* All functions are total and executable; fallible host I/O is modelled by
  explicit data (a vault is a finite list of path/content pairs).
-/

namespace LinearSync

/-- Strings are lists of characters. -/
abbrev Str := List Char

/-- Coerce a Lean string literal to the model's string type. -/
def strL (s : String) : Str := s.data

/-- Newline character. -/
def nlC : Char := Char.ofNat 10

/-- Tab character. -/
def tabC : Char := Char.ofNat 9

/-- Carriage-return character. -/
def crC : Char := Char.ofNat 13

/-- Double-quote character. -/
def quoteC : Char := Char.ofNat 34

/-- Single-quote character. -/
def squoteC : Char := Char.ofNat 39

/-- Backslash character. -/
def bslashC : Char := Char.ofNat 92

/-- Backquote character (the `$`-escape of JS `String.replace` that inserts
the text before the match). -/
def backquoteC : Char := Char.ofNat 96

/-- Whitespace as used by `String.trim` / `\s` (ASCII subset used by the model). -/
def isWs (c : Char) : Bool := c = ' ' || c = tabC || c = nlC || c = crC

/-- Left trim. -/
def trimL (s : Str) : Str := s.dropWhile isWs

/-- Right trim. -/
def trimR (s : Str) : Str := (s.reverse.dropWhile isWs).reverse

/-- JS `String.prototype.trim`. -/
def trim (s : Str) : Str := trimR (trimL s)

/-- JS `String.prototype.split('\n')`: always returns at least one piece. -/
def splitOnNl : Str → List Str
  | [] => [[]]
  | c :: t =>
    if c = nlC then [] :: splitOnNl t
    else
      match splitOnNl t with
      | [] => [[c]]
      | h :: r => (c :: h) :: r

/-- JS `Array.prototype.join('\n')`. -/
def joinNl : List Str → Str
  | [] => []
  | [l] => l
  | l :: ls => l ++ nlC :: joinNl ls

/-- Index of the first occurrence of `pat` in `s` (JS `String.prototype.indexOf`
and the anchor position found by a lazy `[\s\S]*?` scan). -/
def firstOcc (pat : Str) : Str → Option Nat
  | [] => if pat.isPrefixOf ([] : Str) then some 0 else none
  | c :: t =>
    if pat.isPrefixOf (c :: t) then some 0
    else (firstOcc pat t).map (· + 1)

/-- `pat` occurs in `s` at position `j`. -/
def OccursAt (pat s : Str) (j : Nat) : Prop := pat <+: s.drop j

/-! ## Frontmatter values

`NoteFrontmatter` values as the simple YAML parser produces and consumes
them: strings, naturals (`^\d+$` via `parseInt`), exact decimal fractions
(`^\d+\.\d+$` via `parseFloat`, fraction stored with trailing zeros
stripped, as JS number printing would), booleans, flat arrays of scalars,
and the JS `undefined`/`null` family (skipped on write).  Arrays hold
scalars only: the parser only ever builds arrays of strings and the
serializer treats array items as scalars, so deeper nesting never arises
in the codec's data flow. -/
inductive FMAtom : Type
  | str : Str → FMAtom
  | nat : Nat → FMAtom
  | float : Nat → List Nat → FMAtom
  | bool : Bool → FMAtom
  | omitted : FMAtom
  deriving DecidableEq, Repr

/-- A frontmatter value: a scalar or a flat sequence of scalars. -/
inductive FMValue : Type
  | atom : FMAtom → FMValue
  | list : List FMAtom → FMValue
  deriving DecidableEq, Repr

/-- String value. -/
def vStr (s : Str) : FMValue := .atom (.str s)

/-- Natural-number value. -/
def vNat (n : Nat) : FMValue := .atom (.nat n)

/-- Boolean value. -/
def vBool (b : Bool) : FMValue := .atom (.bool b)

/-- `undefined` value. -/
def vOmitted : FMValue := .atom .omitted

/-- A frontmatter object: key/value pairs in property-insertion order. -/
abbrev FM := List (Str × FMValue)

/-- JS property assignment `obj[key] = value`: overwrite in place, else append. -/
def setFMKey : FM → Str → FMValue → FM
  | [], k, v => [(k, v)]
  | (k', v') :: t, k, v =>
    if k' = k then (k, v) :: t else (k', v') :: setFMKey t k v

/-- JS property read `obj[key]`. -/
def lookupFM : FM → Str → Option FMValue
  | [], _ => none
  | (k', v') :: t, k => if k' = k then some v' else lookupFM t k

/-- Decimal digit to character. -/
def digitChar (d : Nat) : Char :=
  match d with
  | 0 => '0' | 1 => '1' | 2 => '2' | 3 => '3' | 4 => '4'
  | 5 => '5' | 6 => '6' | 7 => '7' | 8 => '8' | 9 => '9'
  | _ => '*'

/-- Character to decimal digit value. -/
def digitVal (c : Char) : Nat := c.toNat - 48

/-- Base-10 digits of `n`, least significant first (fuel-driven so that it
reduces definitionally). -/
def natDigitsAux : Nat → Nat → List Nat
  | 0, _ => []
  | _, 0 => []
  | fuel + 1, n + 1 => ((n + 1) % 10) :: natDigitsAux fuel ((n + 1) / 10)

/-- Base-10 digits of `n`, least significant first. -/
def natDigits (n : Nat) : List Nat := natDigitsAux n n

/-- JS `String(n)` for a natural number. -/
def natRepr (n : Nat) : Str :=
  if n = 0 then ['0'] else (natDigits n).reverse.map digitChar

/-- JS `parseInt(s, 10)` on an all-digit string. -/
def parseNatDigits (s : Str) : Nat := s.foldl (fun a c => a * 10 + digitVal c) 0

/-- Split an `^\d+\.\d+$` match into integer and fraction digit strings. -/
def floatSplit (v : Str) : Option (Str × Str) :=
  let a := v.takeWhile Char.isDigit
  match v.drop a.length with
  | c :: b =>
    if c = '.' && a ≠ [] && b ≠ [] && b.all Char.isDigit then some (a, b) else none
  | [] => none

/-- `s.startsWith(q) && s.endsWith(q)` for a one-character quote `q`. -/
def isQuotedBy (q : Char) (s : Str) : Bool := s.head? = some q && s.getLast? = some q

/-- `parseValue` from `src/utils/frontmatter.ts`: strip a quote pair, else
type an integer, a float, a boolean literal, else pass through as string. -/
def parseValue (v : Str) : FMValue :=
  if isQuotedBy quoteC v || isQuotedBy squoteC v then vStr ((v.drop 1).dropLast)
  else if v ≠ [] && v.all Char.isDigit then vNat (parseNatDigits v)
  else
    match floatSplit v with
    | some (a, b) =>
      let fp := ((b.map digitVal).reverse.dropWhile (· = 0)).reverse
      if fp = [] then vNat (parseNatDigits a)
      else .atom (.float (parseNatDigits a) fp)
    | none =>
      if v = strL "true" then vBool true
      else if v = strL "false" then vBool false
      else vStr v

/-- Escape embedded double quotes (`value.replace(/"/g, '\\"')`). -/
def escQuotes (s : Str) : Str :=
  s.foldr (fun c acc => (if c = quoteC then [bslashC, quoteC] else [c]) ++ acc) []

/-- JS `Array.prototype.join(',')`. -/
def joinComma : List Str → Str
  | [] => []
  | [x] => x
  | x :: xs => x ++ ',' :: joinComma xs

/-- `serializeValue` from `src/utils/frontmatter.ts` on a scalar: quote
strings holding `:`, `#` or a newline, stringify numbers and booleans, and
let `undefined` hit the JS `String(value)` catch-all. -/
def serializeAtom : FMAtom → Str
  | .str s =>
    if s.contains ':' || s.contains '#' || s.contains nlC then
      quoteC :: (escQuotes s ++ [quoteC])
    else s
  | .nat n => natRepr n
  | .float ip fp => natRepr ip ++ '.' :: fp.map digitChar
  | .bool b => if b then strL "true" else strL "false"
  | .omitted => strL "undefined"

/-- `serializeValue` from `src/utils/frontmatter.ts` (an array argument hits
the JS `String(value)` catch-all, which joins stringified items with `,`). -/
def serializeValue : FMValue → Str
  | .atom a => serializeAtom a
  | .list items => joinComma (items.map serializeAtom)

/-- The lines `serializeFrontmatter` emits for one entry: `undefined`/`null`
values and empty arrays are skipped; arrays become a bare `key:` line
followed by `  - item` lines. -/
def entryLines (kv : Str × FMValue) : List Str :=
  match kv.2 with
  | .atom .omitted => []
  | .list items =>
    if items = [] then []
    else (kv.1 ++ [':']) :: items.map (fun it => strL "  - " ++ serializeAtom it)
  | .atom a => [kv.1 ++ ':' :: ' ' :: serializeAtom a]

/-- `serializeFrontmatter` from `src/utils/frontmatter.ts`. -/
def serializeFrontmatter (m : FM) : Str := joinNl (m.map entryLines).flatten

/-- The parser state of the simple YAML loop: accumulated object, the
`currentKey`, and the `currentArray`. -/
structure PState where
  fm : FM
  ck : Option Str
  ca : List Str

/-- One iteration of the `for (const line of lines)` loop in
`parseFrontmatter`. -/
def parseLineStep (st : PState) (line : Str) : PState :=
  let t := trim line
  if t = [] || t.head? = some '#' then st
  else if (strL "- ").isPrefixOf t then
    match st.ck with
    | some _ => { st with ca := st.ca ++ [trim (t.drop 2)] }
    | none => st
  else
    let st1 :=
      match st.ck with
      | some k =>
        if st.ca ≠ [] then
          { fm := setFMKey st.fm k (.list (st.ca.map FMAtom.str)), ck := none, ca := [] }
        else st
      | none => st
    match firstOcc [':'] t with
    | some ci =>
      if ci > 0 then
        let key := trim (t.take ci)
        let value := trim (t.drop (ci + 1))
        if value = [] then { st1 with ck := some key, ca := [] }
        else { st1 with fm := setFMKey st1.fm key (parseValue value) }
      else st1
    | none => st1

/-- The trailing `// Handle last array if any` step. -/
def finishParse (st : PState) : FM :=
  match st.ck with
  | some k =>
    if st.ca ≠ [] then setFMKey st.fm k (.list (st.ca.map FMAtom.str)) else st.fm
  | none => st.fm

/-- Parse the text between the frontmatter fences. -/
def parseLinesText (text : Str) : FM :=
  finishParse ((splitOnNl text).foldl parseLineStep ⟨[], none, []⟩)

/-- The opening fence `---\n` consumed by `^---\n`. -/
def opener : Str := ['-', '-', '-', nlC]

/-- The fence pattern `\n---` that terminates the lazy group of the parse
regex (written without delimiters: `^---\n([\s\S]*?)\n---`). -/
def pat4 : Str := [nlC, '-', '-', '-']

/-- The fence pattern `\n---\n` that terminates the lazy group of the update
regex (written without delimiters: `^---\n([\s\S]*?)\n---\n`). -/
def pat5 : Str := [nlC, '-', '-', '-', nlC]

/-- The text captured by the regex `^---\n([\s\S]*?)\n---`, when it matches. -/
def fmBlockOf (content : Str) : Option Str :=
  if opener.isPrefixOf content then
    (firstOcc pat4 (content.drop 4)).map (fun i => (content.drop 4).take i)
  else none

/-- `parseFrontmatter` from `src/utils/frontmatter.ts`. -/
def parseFrontmatter (content : Str) : FM :=
  match fmBlockOf content with
  | some g => parseLinesText g
  | none => []

/-- ECMAScript `GetSubstitution` for a string replacement under a regex with
exactly one capture group, as used by `String.prototype.replace`: `$$` gives
a dollar, `$&` the matched text, a dollar before a backquote the text before
the match, `$` with a single quote the text after it, `$1` (also written
`$01`) the capture; any other `$nn`, `$n` or unrecognized dollar sequence is
kept literally. -/
def getSubstitutionAux (matched before after g1 : Str) : Nat → Str → Str
  | 0, s => s
  | _ + 1, [] => []
  | fuel + 1, c :: rest =>
    if c = '$' then
      match rest with
      | [] => ['$']
      | c1 :: rest2 =>
        if c1 = '$' then '$' :: getSubstitutionAux matched before after g1 fuel rest2
        else if c1 = '&' then
          matched ++ getSubstitutionAux matched before after g1 fuel rest2
        else if c1 = backquoteC then
          before ++ getSubstitutionAux matched before after g1 fuel rest2
        else if c1 = squoteC then
          after ++ getSubstitutionAux matched before after g1 fuel rest2
        else if c1.isDigit then
          match rest2 with
          | c2 :: rest3 =>
            if c2.isDigit then
              if 10 * digitVal c1 + digitVal c2 = 1 then
                g1 ++ getSubstitutionAux matched before after g1 fuel rest3
              else '$' :: c1 :: c2 :: getSubstitutionAux matched before after g1 fuel rest3
            else
              if digitVal c1 = 1 then
                g1 ++ getSubstitutionAux matched before after g1 fuel rest2
              else '$' :: c1 :: getSubstitutionAux matched before after g1 fuel rest2
          | [] => if digitVal c1 = 1 then g1 else ['$', c1]
        else '$' :: c1 :: getSubstitutionAux matched before after g1 fuel rest2
    else c :: getSubstitutionAux matched before after g1 fuel rest

/-- The substitution scan, fuelled by the template length (each step consumes
at least one template character). -/
def getSubstitution (matched before after g1 tpl : Str) : Str :=
  getSubstitutionAux matched before after g1 (tpl.length + 1) tpl

/-- `updateFrontmatter` from `src/utils/frontmatter.ts`: replace the leading
`---\n...\n---\n` block via `content.replace(frontmatterRegex, newBlock)` —
a JS string replacement, so dollar sequences in the new block are expanded
by `GetSubstitution` (the regex is anchored, hence the match starts at 0,
the text before it is empty and the text after it is the body) — or prepend
a fresh block by plain concatenation when the regex does not match. -/
def updateFrontmatter (content : Str) (m : FM) : Str :=
  let newBlock := opener ++ serializeFrontmatter m ++ pat5
  if opener.isPrefixOf content then
    match firstOcc pat5 (content.drop 4) with
    | some i =>
      let inner := (content.drop 4).take i
      let rest := content.drop (4 + i + 5)
      getSubstitution (opener ++ inner ++ pat5) [] rest inner newBlock ++ rest
    | none => newBlock ++ content
  else newBlock ++ content

/-- The frontmatter stripping `content.replace(/^---\n[\s\S]*?\n---\n?/, '')`
used by the conflict resolver. -/
def stripFrontmatterBlock (content : Str) : Str :=
  if opener.isPrefixOf content then
    match firstOcc pat4 (content.drop 4) with
    | some i =>
      match (content.drop 4).drop (i + 4) with
      | c :: t => if c = nlC then t else c :: t
      | [] => []
    | none => content
  else content

/-! ## Conflict detector (`src/features/conflict-resolver.ts`) -/

/-- The heading match `^#\s+(.+)$` (multiline) attempted at one line start;
returns the trimmed capture.  The greedy `\s+` backtracks so that `(.+)` can
still take a trailing non-newline whitespace character when the rest of the
line is blank. -/
def lastGoodIdxAux (w : Str) : Nat → Option Nat
  | 0 => none
  | j + 1 =>
    if 1 ≤ j && (match w.get? j with | some c => decide (c ≠ nlC) | none => false) then some j
    else lastGoodIdxAux w j

/-- Attempt the heading match at the start of `s` (a line start). -/
def matchHeadingAt (s : Str) : Option Str :=
  match s with
  | c :: r =>
    if c = '#' then
      let w := r.takeWhile isWs
      if w = [] then none
      else if r.drop w.length ≠ [] then
        some (trim ((r.drop w.length).takeWhile (fun x => x ≠ nlC)))
      else
        match lastGoodIdxAux w w.length with
        | some k => some (trim ((r.drop k).takeWhile (fun x => x ≠ nlC)))
        | none => none
    else none
  | [] => none

/-- Advance to the start of the next line. -/
def dropLine (s : Str) : Str := (s.dropWhile (fun c => c ≠ nlC)).drop 1

/-- Scan the line starts of `s` for the first heading match. -/
def headingGoAux : Nat → Str → Option Str
  | 0, _ => none
  | _ + 1, [] => none
  | fuel + 1, s =>
    match matchHeadingAt s with
    | some t => some t
    | none => headingGoAux fuel (dropLine s)

/-- `extractTitleFromContent`: strip the frontmatter block and return the
first markdown heading's trimmed text. -/
def extractTitleFromContent (content : Str) : Option Str :=
  let w := stripFrontmatterBlock content
  headingGoAux (w.length + 1) w

/-- For the string-start-anchored `^#\s+.+\n` replace: the largest split of
the whitespace run after `#` such that `(.+)` is nonempty and a literal
newline follows. -/
def backKAux (r : Str) : Nat → Option Nat
  | 0 => none
  | j + 1 =>
    if 1 ≤ j && (match r.get? j with | some c => decide (c ≠ nlC) | none => false)
        && (r.drop j).contains nlC then some j
    else backKAux r j

/-- `description.replace(/^#\s+.+\n/, '')`: remove a leading heading line. -/
def stripLeadingHeading (d : Str) : Str :=
  match d with
  | c :: r =>
    if c = '#' then
      let w := r.takeWhile isWs
      if w = [] then d
      else
        match backKAux r (w.length + 1) with
        | some k =>
          let x := (r.drop k).takeWhile (fun ch => ch ≠ nlC)
          (r.drop k).drop (x.length + 1)
        | none => d
    else d
  | [] => d

/-- The trailer marker searched with `indexOf`. -/
def llPat : Str := strL "## Linear Link"

/-- `extractDescriptionFromContent`: strip frontmatter, the first heading,
anything from the `## Linear Link` trailer on (only when its index is
positive), trim, and return `null` for an empty result. -/
def extractDescriptionFromContent (content : Str) : Option Str :=
  let d1 := stripLeadingHeading (stripFrontmatterBlock content)
  let d2 :=
    match firstOcc llPat d1 with
    | some i => if 0 < i then d1.take i else d1
    | none => d1
  let d3 := trim d2
  if d3 = [] then none else some d3

/-- The remote issue as the conflict detector reads it.  `updatedAt` is the
epoch value of the ISO timestamp compared through `new Date(..)`. -/
structure DIssue where
  id : Str
  title : Str
  description : Option Str
  stateName : Str
  assigneeName : Option Str
  priority : Nat
  updatedAt : Nat
  deriving DecidableEq, Repr

/-- The frontmatter fields `detectConflicts` reads.  `lastSynced` is `none`
when `linear_last_synced` is absent or falsy, otherwise the epoch value of
the stored timestamp. -/
structure DNote where
  lastSynced : Option Nat
  status : Option Str
  assigneeName : Option Str
  priority : Option Nat
  deriving DecidableEq, Repr

/-- The five conflictable fields. -/
inductive CField : Type
  | title | status | assignee | priority | description
  deriving DecidableEq, Repr

/-- A conflict-record value (string, number, or the JS `null`/`undefined`
family, which the modal renders identically). -/
inductive CVal : Type
  | s : Str → CVal
  | n : Nat → CVal
  | null : CVal
  deriving DecidableEq, Repr

/-- `conflict.linearValue = linearAssignee || null` and friends: empty
strings collapse to `null`. -/
def optCVal : Option Str → CVal
  | none => .null
  | some s => if s = [] then .null else .s s

/-- A raw optional string stored in a conflict record (no `|| null`). -/
def optCValRaw : Option Str → CVal
  | none => .null
  | some s => .s s

/-- A raw optional number stored in a conflict record. -/
def optNatCVal : Option Nat → CVal
  | none => .null
  | some n => .n n

/-- `ConflictInfo` from the models; `timestamp` is the detection instant. -/
structure ConflictInfo where
  issueId : Str
  field : CField
  linearValue : CVal
  obsidianValue : CVal
  timestamp : Nat
  deriving DecidableEq, Repr

/-- `ConflictResolver.detectConflicts`: gate on the timestamps, then compare
title, status, assignee, priority and description in that order. -/
def detectConflicts (issue : DIssue) (note : DNote) (content : Str) (now : Nat) :
    List ConflictInfo :=
  match note.lastSynced with
  | none => []
  | some ts =>
    if issue.updatedAt ≤ ts then []
    else
      let titleCs :=
        match extractTitleFromContent content with
        | some t =>
          if t ≠ [] ∧ t ≠ issue.title then
            [⟨issue.id, .title, .s issue.title, .s t, now⟩]
          else []
        | none => []
      let statusCs :=
        match note.status with
        | some st =>
          if st ≠ [] ∧ st ≠ issue.stateName then
            [⟨issue.id, .status, .s issue.stateName, .s st, now⟩]
          else []
        | none => []
      let assigneeCs :=
        if note.assigneeName ≠ issue.assigneeName then
          [⟨issue.id, .assignee, optCVal issue.assigneeName, optCVal note.assigneeName, now⟩]
        else []
      let priorityCs :=
        if note.priority ≠ some issue.priority then
          [⟨issue.id, .priority, .n issue.priority, optNatCVal note.priority, now⟩]
        else []
      let descCs :=
        match extractDescriptionFromContent content with
        | some d =>
          if some d ≠ issue.description then
            [⟨issue.id, .description, optCValRaw issue.description, .s d, now⟩]
          else []
        | none => []
      titleCs ++ statusCs ++ assigneeCs ++ priorityCs ++ descCs

/-! ## Conflict resolver policies and the resolution modal -/

/-- A resolution winner. -/
inductive Winner : Type
  | linear | obsidian | merge
  deriving DecidableEq, Repr

/-- The `conflictResolution` setting. -/
inductive Policy : Type
  | manual | linearWins | obsidianWins | timestamp
  deriving DecidableEq, Repr

/-- Generic JS-object assignment over string keys. -/
def setAssoc {β : Type} : List (Str × β) → Str → β → List (Str × β)
  | [], k, v => [(k, v)]
  | (k', v') :: t, k, v =>
    if k' = k then (k, v) :: t else (k', v') :: setAssoc t k v

/-- Generic JS-object read over string keys. -/
def lookupAssoc {β : Type} : List (Str × β) → Str → Option β
  | [], _ => none
  | (k', v') :: t, k => if k' = k then some v' else lookupAssoc t k

/-- The textual name of a conflict field, as used inside conflict keys. -/
def fieldName : CField → Str
  | .title => strL "title"
  | .status => strL "status"
  | .assignee => strL "assignee"
  | .priority => strL "priority"
  | .description => strL "description"

/-- The conflict key `issueId-field`. -/
def conflictKey (c : ConflictInfo) : Str := c.issueId ++ '-' :: fieldName c.field

/-- A fully-resolved winner map. -/
abbrev ResMap := List (Str × Winner)

/-- `createResolutionMap`: assign the fixed winner to every conflict key. -/
def createResolutionMap (conflicts : List ConflictInfo) (winner : Winner) : ResMap :=
  conflicts.foldl (fun m c => setAssoc m (conflictKey c) winner) []

/-- `resolveByTimestamp`: the source defaults to Linear for every conflict
("For now, default to Linear wins for simplicity"). -/
def resolveByTimestamp (conflicts : List ConflictInfo) : ResMap :=
  createResolutionMap conflicts .linear

/-- `resolveConflicts`: dispatch on the policy.  Under `manual` the modal's
answer (modelled as `modalResult`) is returned. -/
def resolveConflicts (policy : Policy) (conflicts : List ConflictInfo)
    (modalResult : ResMap) : ResMap :=
  match policy with
  | .linearWins => createResolutionMap conflicts .linear
  | .obsidianWins => createResolutionMap conflicts .obsidian
  | .timestamp => resolveByTimestamp conflicts
  | .manual => modalResult

/-- The modal's dropdown state: a key may be unset, or set to the empty
"Choose resolution..." option (`none`), or to a winner. -/
abbrev SelMap := List (Str × Option Winner)

/-- JS truthiness of `this.resolutions[key]` in the modal. -/
def selFor (m : SelMap) (k : Str) : Option Winner :=
  match lookupAssoc m k with
  | some (some w) => some w
  | _ => none

/-- `ConflictResolutionModal.resolveSelected`: refuse (and keep waiting)
unless every conflict has a truthy resolution; only then hand the winner map
to `onResolve`. -/
def resolveSelected (conflicts : List ConflictInfo) (sel : SelMap) : Option SelMap :=
  if conflicts.all (fun c => (selFor sel (conflictKey c)).isSome) then some sel else none

/-! ## Sync merge (`src/sync/sync-manager.ts`) -/

/-- The remote issue as the sync manager writes it (timestamps kept as the
opaque ISO strings the frontmatter stores). -/
structure SyncIssue where
  id : Str
  identifier : Str
  title : Str
  description : Option Str
  stateName : Str
  assigneeName : Option Str
  teamName : Str
  url : Str
  createdAt : Str
  updatedAt : Str
  priority : Nat
  estimate : Option Nat
  labels : List Str
  deriving DecidableEq, Repr

/-- An optional string as a frontmatter value (`undefined` when absent). -/
def optStrFM : Option Str → FMValue
  | some s => vStr s
  | none => vOmitted

/-- An optional number as a frontmatter value (`undefined` when absent). -/
def optNatFM : Option Nat → FMValue
  | some n => vNat n
  | none => vOmitted

/-- The `linear_*` keys assigned by the object spread in
`updateNoteWithIssue`, in source order. -/
def issueFMUpdates (issue : SyncIssue) (nowIso : Str) : List (Str × FMValue) :=
  [ (strL "linear_id", vStr issue.id),
    (strL "linear_identifier", vStr issue.identifier),
    (strL "linear_status", vStr issue.stateName),
    (strL "linear_assignee", optStrFM issue.assigneeName),
    (strL "linear_team", vStr issue.teamName),
    (strL "linear_url", vStr issue.url),
    (strL "linear_created", vStr issue.createdAt),
    (strL "linear_updated", vStr issue.updatedAt),
    (strL "linear_last_synced", vStr nowIso),
    (strL "linear_priority", vNat issue.priority),
    (strL "linear_estimate", optNatFM issue.estimate),
    (strL "linear_labels", FMValue.list (issue.labels.map FMAtom.str)) ]

/-- `{...frontmatter, linear_id: ..., ...}`: spread then assign each key. -/
def mergeIssueFM (fm : FM) (issue : SyncIssue) (nowIso : Str) : FM :=
  (issueFMUpdates issue nowIso).foldl (fun m kv => setFMKey m kv.1 kv.2) fm

/-- JS truthiness of a frontmatter read (`!frontmatter.linear_id`). -/
def isTruthy : Option FMValue → Bool
  | none => false
  | some (.atom (.str s)) => s ≠ []
  | some (.atom (.nat n)) => n ≠ 0
  | some (.atom (.float ip fp)) => ip ≠ 0 || fp.any (· ≠ 0)
  | some (.atom (.bool b)) => b
  | some (.atom .omitted) => false
  | some (.list _) => true

/-- `String(value)` as used by the template-literal writes of
`addFrontmatterToContent` (no quoting, arrays joined with commas). -/
def atomToString : FMAtom → Str
  | .str s => s
  | .nat n => natRepr n
  | .float ip fp => natRepr ip ++ '.' :: fp.map digitChar
  | .bool b => if b then strL "true" else strL "false"
  | .omitted => strL "undefined"

/-- The lines `addFrontmatterToContent` pushes for one entry (note: unlike
the codec's serializer, an empty array still emits its bare `key:` line). -/
def smEntryLines (kv : Str × FMValue) : List Str :=
  match kv.2 with
  | .atom .omitted => []
  | .list items => (kv.1 ++ [':']) :: items.map (fun it => strL "  - " ++ atomToString it)
  | .atom a => [kv.1 ++ ':' :: ' ' :: atomToString a]

/-- `addFrontmatterToContent` from the sync manager. -/
def addFrontmatterToContent (content : Str) (fm : FM) : Str :=
  joinNl ([strL "---"] ++ (fm.map smEntryLines).flatten ++ [strL "---", []]) ++ content

/-- `updateNoteWithIssue` as a content transformation: read the frontmatter,
decide linked-vs-new on the truthiness of `linear_id`, then either rewrite
only the frontmatter block (linked) or regenerate the whole note (new).
`generatedBody` stands for `generateNoteContent(issue)`, the template
substitution the spec leaves out of core scope.  Returns the new content and
the `isNewNote` flag. -/
def updateNoteWithIssue (content : Str) (issue : SyncIssue) (nowIso : Str)
    (generatedBody : Str) : Str × Bool :=
  let fm := parseFrontmatter content
  let isNewNote := !(isTruthy (lookupFM fm (strL "linear_id")))
  let updated := mergeIssueFM fm issue nowIso
  if isNewNote then (addFrontmatterToContent generatedBody updated, true)
  else (updateFrontmatter content updated, false)

/-! ## Local configuration resolver (`LocalConfigManager`) -/

/-- `LinearNoteConfig` from the models. -/
structure LinearNoteConfig where
  workspace : Option Str := none
  team : Option Str := none
  project : Option Str := none
  labels : Option (List Str) := none
  assignee : Option Str := none
  priority : Option Nat := none
  autoSync : Option Bool := none
  template : Option Str := none
  deriving DecidableEq, Repr

/-- A vault as the resolver sees it: existing file paths together with the
`JSON.parse` outcome of their content (`none` = malformed JSON). -/
abbrev Vault := List (Str × Option LinearNoteConfig)

/-- `getAbstractFileByPath(..) instanceof TFile`. -/
def hasVaultFile (v : Vault) (p : Str) : Bool := v.any (fun e => e.1 = p)

/-- Read a file's parse outcome. -/
def lookupVault (v : Vault) (p : Str) : Option (Option LinearNoteConfig) :=
  lookupAssoc v p

/-- The reserved configuration file name. -/
def cfgFileName : Str := strL ".linear.json"

/-- Index of the last occurrence of `c` (JS `lastIndexOf`). -/
def lastIdxOf (c : Char) (s : Str) : Option Nat :=
  (firstOcc [c] s.reverse).map (fun i => s.length - 1 - i)

/-- `getDirectoryPath`: the prefix before the last slash when that slash has
a positive index, else the empty (root) directory. -/
def getDirectoryPath (p : Str) : Str :=
  match lastIdxOf '/' p with
  | some i => if 0 < i then p.take i else []
  | none => []

/-- The `while (currentDir !== '')` walk of `findConfigPath`, fuelled by the
initial directory length (each parent step strictly shortens the path). -/
def findConfigAux (v : Vault) : Nat → Str → Str
  | 0, _ => if hasVaultFile v cfgFileName then cfgFileName else []
  | fuel + 1, d =>
    if d = [] then (if hasVaultFile v cfgFileName then cfgFileName else [])
    else
      let cp := d ++ '/' :: cfgFileName
      if hasVaultFile v cp then cp else findConfigAux v fuel (getDirectoryPath d)

/-- `findConfigPath`: walk up from the note's folder; the root is checked as
the final step; empty when nothing is found. -/
def findConfigPath (v : Vault) (notePath : Str) : Str :=
  findConfigAux v (getDirectoryPath notePath).length (getDirectoryPath notePath)

/-- `loadConfig`: empty path, missing file and malformed JSON all fail open
to the empty configuration. -/
def loadConfig (v : Vault) (p : Str) : LinearNoteConfig :=
  if p = [] then {}
  else
    match lookupVault v p with
    | none => {}
    | some none => {}
    | some (some cfg) => cfg

/-- `getConfigForNote` on a cold cache (the cache is keyed by the resolved
config path and only memoizes this same computation). -/
def getConfigForNote (v : Vault) (notePath : Str) : LinearNoteConfig :=
  loadConfig v (findConfigPath v notePath)

/-- The chain of directories the walk visits, ending with the root. -/
def dirChain : Nat → Str → List Str
  | 0, _ => [[]]
  | fuel + 1, d => if d = [] then [[]] else d :: dirChain fuel (getDirectoryPath d)

/-- The reserved-name configuration path inside a directory. -/
def cfgPathIn (d : Str) : Str := if d = [] then cfgFileName else d ++ '/' :: cfgFileName

/-- Modelled from the spec: the nearest-ancestor resolution rule — scan the
ancestor folders of the document from the innermost outward, the root as the
final step, and return the first existing reserved-name configuration file,
with no merging of ancestors.  Used as the reference side of the refinement
statement for the resolver. -/
def nearestConfigPath (v : Vault) (notePath : Str) : Str :=
  let d0 := getDirectoryPath notePath
  (((dirChain d0.length d0).map cfgPathIn).find? (fun p => hasVaultFile v p)).getD []

/-! ## Structured-text parser (`MarkdownParser`) -/

/-- The inline-tag kinds of `TAG_PATTERNS` (there is no `team` pattern). -/
inductive TagType : Type
  | status | assignee | priority | label | project
  deriving DecidableEq, Repr

/-- An `InlineTag` with its match span. -/
structure InlineTag where
  ttype : TagType
  value : Str
  startPos : Nat
  endPos : Nat
  deriving DecidableEq, Repr

/-- One global-regex scan for a literal prefix followed by a nonempty
maximal run of value characters; a successful match resumes after its end,
a failed position advances by one. -/
def scanTagsAux (pre : Str) (valPred : Char → Bool) (tt : TagType) :
    Nat → Nat → Str → List InlineTag
  | 0, _, _ => []
  | _ + 1, _, [] => []
  | fuel + 1, pos, s =>
    if pre.isPrefixOf s then
      let v := (s.drop pre.length).takeWhile valPred
      if v ≠ [] then
        let len := pre.length + v.length
        ⟨tt, v, pos, pos + len⟩ ::
          scanTagsAux pre valPred tt fuel (pos + len) (s.drop len)
      else scanTagsAux pre valPred tt fuel (pos + 1) (s.drop 1)
    else scanTagsAux pre valPred tt fuel (pos + 1) (s.drop 1)

/-- Scan the whole content for one pattern. -/
def scanTags (pre : String) (valPred : Char → Bool) (tt : TagType) (content : Str) :
    List InlineTag :=
  scanTagsAux (strL pre) valPred tt (content.length + 1) 0 content

/-- Stable insertion of a tag by start position (JS `sort` is stable). -/
def insertTag (x : InlineTag) : List InlineTag → List InlineTag
  | [] => [x]
  | y :: ys => if x.startPos ≤ y.startPos then x :: y :: ys else y :: insertTag x ys

/-- Stable sort by start position. -/
def sortTags : List InlineTag → List InlineTag
  | [] => []
  | x :: xs => insertTag x (sortTags xs)

/-- `MarkdownParser.parseInlineTags`: run the five patterns in the key order
of `TAG_PATTERNS` and sort all matches by position. -/
def parseInlineTags (content : Str) : List InlineTag :=
  sortTags
    (scanTags "@status/" (fun c => !isWs c) .status content
      ++ scanTags "@assignee/" (fun c => !isWs c) .assignee content
      ++ scanTags "@priority/" Char.isDigit .priority content
      ++ scanTags "#" (fun c => !isWs c && c ≠ '#') .label content
      ++ scanTags "@project/" (fun c => !isWs c) .project content)

/-- JS `\w`. -/
def isWordChar (c : Char) : Bool := c.isAlphanum || c = '_'

/-- The lookahead `(?=\n\w+:|$)` that ends the lazy `linear_config` group. -/
def stopAt (t : Str) : Bool :=
  match t with
  | c :: rest =>
    if c = nlC then
      let w := rest.takeWhile isWordChar
      w ≠ [] && (rest.drop w.length).head? = some ':'
    else false
  | [] => false

/-- Extend the lazy group until the lookahead position or the end. -/
def takeUntilStop : Str → Str
  | [] => []
  | c :: t => if stopAt (c :: t) then [] else c :: takeUntilStop t

/-- Find the `linear_config:` block inside the frontmatter text: after the
keyword, the greedy-backtracked `\s*\n` ends at the last newline of the
whitespace run; a keyword occurrence not followed by such a run is skipped
and the scan resumes one character further. -/
def configTextOfAux : Nat → Str → Option Str
  | 0, _ => none
  | fuel + 1, fm =>
    match firstOcc (strL "linear_config:") fm with
    | none => none
    | some i =>
      let r := fm.drop (i + 14)
      let run := r.takeWhile isWs
      match lastIdxOf nlC run with
      | some j => some (takeUntilStop (r.drop (j + 1)))
      | none => configTextOfAux fuel (fm.drop (i + 1))

/-- The `linear_config` group text of a frontmatter body, when present. -/
def configTextOf (fm : Str) : Option Str := configTextOfAux (fm.length + 1) fm

/-- A scalar field regex `\s*kw\s*(.+)` over the config text: take the first
keyword occurrence, skip all whitespace, and capture the rest of that line;
an all-whitespace tail yields an empty trimmed capture, which the source
treats as the field being absent. -/
def fieldValueOf (kw : String) (ct : Str) : Option Str :=
  match firstOcc (strL kw) ct with
  | none => none
  | some i =>
    let r := (ct.drop (i + (strL kw).length)).dropWhile isWs
    if r = [] then none
    else some (trim (r.takeWhile (fun c => c ≠ nlC)))

/-- The `\s*priority:\s*(\d+)` scan, retrying later occurrences when no
digit follows. -/
def priorityFieldAux : Nat → Str → Option Nat
  | 0, _ => none
  | fuel + 1, ct =>
    match firstOcc (strL "priority:") ct with
    | none => none
    | some i =>
      let ds := ((ct.drop (i + 9)).dropWhile isWs).takeWhile Char.isDigit
      if ds ≠ [] then some (parseNatDigits ds)
      else priorityFieldAux fuel (ct.drop (i + 1))

/-- The priority field of the config text. -/
def priorityFieldOf (ct : Str) : Option Nat := priorityFieldAux (ct.length + 1) ct

/-- The `\s*autoSync:\s*(true|false)` scan. -/
def autoSyncFieldAux : Nat → Str → Option Bool
  | 0, _ => none
  | fuel + 1, ct =>
    match firstOcc (strL "autoSync:") ct with
    | none => none
    | some i =>
      let r := (ct.drop (i + 9)).dropWhile isWs
      if (strL "true").isPrefixOf r then some true
      else if (strL "false").isPrefixOf r then some false
      else autoSyncFieldAux fuel (ct.drop (i + 1))

/-- The autoSync field of the config text. -/
def autoSyncFieldOf (ct : Str) : Option Bool := autoSyncFieldAux (ct.length + 1) ct

/-- Largest split point of the whitespace run after a `-` item dash such
that `.+` is nonempty and a literal newline still follows within the run
(the backtracking of `\s*(.+)\n` when the rest of the text has no newline). -/
def backInRunAux (r2 : Str) : Nat → Option Nat
  | 0 => none
  | j + 1 =>
    if (match r2.get? j with | some c => decide (c ≠ nlC) | none => false)
        && (r2.drop (j + 1)).contains nlC then some j
    else backInRunAux r2 j

/-- The greedy repetition `(?:\s*-\s*.+\n)*` matched from the start of `t`;
returns the matched prefix. -/
def labelsRepAux : Nat → Str → Str
  | 0, _ => []
  | fuel + 1, t =>
    let ws1 := t.takeWhile isWs
    match t.drop ws1.length with
    | c :: v =>
      if c = '-' then
        let r2 := v.takeWhile isWs
        let e := v.drop r2.length
        if e ≠ [] && (firstOcc [nlC] e).isSome then
          match firstOcc [nlC] e with
          | some q =>
            let consumed := ws1.length + 1 + r2.length + q + 1
            t.take consumed ++ labelsRepAux fuel (t.drop consumed)
          | none => []
        else
          match backInRunAux r2 r2.length with
          | some p =>
            let consumed := ws1.length + 1 + p + 2
            t.take consumed ++ labelsRepAux fuel (t.drop consumed)
          | none => []
      else []
    | [] => []

/-- The `\s*labels:\s*\n((?:\s*-\s*.+\n)*)` scan over the config text. -/
def labelsFieldAux : Nat → Str → Option Str
  | 0, _ => none
  | fuel + 1, ct =>
    match firstOcc (strL "labels:") ct with
    | none => none
    | some i =>
      let r := ct.drop (i + 7)
      let run := r.takeWhile isWs
      match lastIdxOf nlC run with
      | some j => some (labelsRepAux ((r.drop (j + 1)).length + 1) (r.drop (j + 1)))
      | none => labelsFieldAux fuel (ct.drop (i + 1))

/-- The labels group of the config text, when present. -/
def labelsFieldOf (ct : Str) : Option Str := labelsFieldAux (ct.length + 1) ct

/-- `split('\n').filter(startsWith('-')).map(drop dash, trim).filter(Boolean)`. -/
def labelsFromGroup (g : Str) : List Str :=
  (((splitOnNl g).filter (fun l => (['-'] : Str).isPrefixOf (trim l))).map
    (fun l => trim ((trim l).drop 1))).filter (fun s => s ≠ [])

/-- The block-level (frontmatter `linear_config`) part of
`MarkdownParser.parseNoteConfig`. -/
def parseNoteConfigBlock (content : Str) : LinearNoteConfig :=
  match fmBlockOf content with
  | none => {}
  | some fm =>
    match configTextOf fm with
    | none => {}
    | some ct =>
      { workspace := fieldValueOf "workspace:" ct
        team := fieldValueOf "team:" ct
        project := fieldValueOf "project:" ct
        assignee := fieldValueOf "assignee:" ct
        priority := priorityFieldOf ct
        autoSync := autoSyncFieldOf ct
        template := fieldValueOf "template:" ct
        labels :=
          match labelsFieldOf ct with
          | some g =>
            let ls := labelsFromGroup g
            if ls ≠ [] then some ls else none
          | none => none }

/-- The `inlineTags.forEach` merge switch of `parseNoteConfig`: assignee,
priority and project overwrite; labels accumulate without duplicates;
status tags are silently dropped (no `case 'status'`). -/
def applyTag (cfg : LinearNoteConfig) (t : InlineTag) : LinearNoteConfig :=
  match t.ttype with
  | .assignee => { cfg with assignee := some t.value }
  | .priority => { cfg with priority := some (parseNatDigits t.value) }
  | .project => { cfg with project := some t.value }
  | .label =>
    let ls := cfg.labels.getD []
    if ls.contains t.value then { cfg with labels := some ls }
    else { cfg with labels := some (ls ++ [t.value]) }
  | .status => cfg

/-- `MarkdownParser.parseNoteConfig`: block config first, then the sorted
inline tags folded over it. -/
def parseNoteConfig (content : Str) : LinearNoteConfig :=
  (parseInlineTags content).foldl applyTag (parseNoteConfigBlock content)

/-- Modelled from the spec's merge rule: the value of the last inline tag of
a given kind, if any (last-of-a-kind wins). -/
def lastScalarTag (tt : TagType) : List InlineTag → Option Str
  | [] => none
  | t :: ts =>
    match lastScalarTag tt ts with
    | some v => some v
    | none => if t.ttype = tt then some t.value else none

/-- Modelled from the spec: the numeric value of the last priority tag. -/
def lastPriorityTag (ts : List InlineTag) : Option Nat :=
  (lastScalarTag .priority ts).map parseNatDigits

/-- Append without duplicates (order of first occurrence). -/
def labelAcc (ls : List Str) (v : Str) : List Str :=
  if ls.contains v then ls else ls ++ [v]

/-- Modelled from the spec: label tags accumulate into a deduplicated list
in order of first occurrence, over an initial (block) list. -/
def labelFold : List InlineTag → List Str → List Str
  | [], acc => acc
  | t :: ts, acc => labelFold ts (if t.ttype = .label then labelAcc acc t.value else acc)

/-- Whether any label tag occurs. -/
def anyLabel (ts : List InlineTag) : Bool := ts.any (fun t => t.ttype = TagType.label)

/-! ## Inline expressions (`issue-modal.ts` `parseInlineExpressions`) -/

/-- A value character of the modal's expression patterns: anything except
whitespace and `@`. -/
def exprWordPred (c : Char) : Bool := !isWs c && c ≠ '@'

/-- The greedy `(?:\s+[^@\s]+)*` continuation after the first word. -/
def exprRestAux : Nat → Str → Str
  | 0, _ => []
  | fuel + 1, s =>
    let ws := s.takeWhile isWs
    if ws = [] then []
    else
      let w := (s.drop ws.length).takeWhile exprWordPred
      if w = [] then []
      else ws ++ w ++ exprRestAux fuel (s.drop (ws.length + w.length))

/-- The capture `([^@\s]+(?:\s+[^@\s]+)*)` matched at the start of `s`, with
its length. -/
def exprValueAt (s : Str) : Option (Str × Nat) :=
  let w1 := s.takeWhile exprWordPred
  if w1 = [] then none
  else
    let rest := exprRestAux (s.length + 1) (s.drop w1.length)
    some (w1 ++ rest, w1.length + rest.length)

/-- One global scan of `@kind/` expressions: trimmed nonempty captures are
collected in match order. -/
def scanExprsAux (kw : Str) : Nat → Str → List Str
  | 0, _ => []
  | _ + 1, [] => []
  | fuel + 1, s =>
    if kw.isPrefixOf s then
      match exprValueAt (s.drop kw.length) with
      | some (v, len) =>
        let tv := trim v
        (if tv ≠ [] then [tv] else []) ++ scanExprsAux kw fuel (s.drop (kw.length + len))
      | none => scanExprsAux kw fuel (s.drop 1)
    else scanExprsAux kw fuel (s.drop 1)

/-- The values found for one expression kind. -/
def parseInlineExpressionsFor (kw : String) (content : Str) : List Str :=
  scanExprsAux (strL kw) (content.length + 1) content

/-- `parseInlineExpressions`: the five patterns in source order, as
(kind, value) pairs. -/
def parseInlineExpressions (content : Str) : List (Str × Str) :=
  ((parseInlineExpressionsFor "@team/" content).map (fun v => (strL "team", v)))
    ++ ((parseInlineExpressionsFor "@assignee/" content).map (fun v => (strL "assignee", v)))
    ++ ((parseInlineExpressionsFor "@priority/" content).map (fun v => (strL "priority", v)))
    ++ ((parseInlineExpressionsFor "@status/" content).map (fun v => (strL "status", v)))
    ++ ((parseInlineExpressionsFor "@label/" content).map (fun v => (strL "label", v)))

/-! ## Well-formedness predicates for the codec round-trip -/

/-- The first character, if any, is not whitespace. -/
def HeadOk (s : Str) : Prop :=
  match s.head? with
  | some c => isWs c = false
  | none => True

/-- The last character, if any, is not whitespace. -/
def LastOk (s : Str) : Prop :=
  match s.getLast? with
  | some c => isWs c = false
  | none => True

/-- A key the line parser reads back verbatim: nonempty, trim-stable, free
of colons and newlines, and not opening a comment, an array item or a
fence. -/
def SafeKey (k : Str) : Prop :=
  k ≠ [] ∧ HeadOk k ∧ LastOk k ∧ k.contains ':' = false ∧ k.contains nlC = false ∧
    k.head? ≠ some '#' ∧ k.head? ≠ some '-'

/-- A string value the codec round-trips: nonempty, trim-stable, unquoted on
write (no colon, hash or newline), quote-free, and not reading back as a
number or boolean. -/
def SafeStrVal (s : Str) : Prop :=
  s ≠ [] ∧ HeadOk s ∧ LastOk s ∧ s.contains ':' = false ∧ s.contains '#' = false ∧
    s.contains nlC = false ∧ s.contains quoteC = false ∧ s.contains squoteC = false ∧
    s ≠ strL "true" ∧ s ≠ strL "false" ∧ s.all Char.isDigit = false ∧ floatSplit s = none

/-- A sequence item the codec round-trips (items are read back as raw
strings, so only the quoting triggers have to be avoided). -/
def SafeItem (s : Str) : Prop :=
  s ≠ [] ∧ HeadOk s ∧ LastOk s ∧ s.contains ':' = false ∧ s.contains '#' = false ∧
    s.contains nlC = false

/-- A well-formed scalar. -/
def WFAtom : FMAtom → Prop
  | .str s => SafeStrVal s
  | .nat _ => True
  | .float _ fp => fp ≠ [] ∧ (∀ d ∈ fp, d < 10) ∧ fp.getLast? ≠ some 0
  | .bool _ => True
  | .omitted => False

/-- A well-formed value: a scalar, or a nonempty sequence of safe strings. -/
def WFValue : FMValue → Prop
  | .atom a => WFAtom a
  | .list items => items ≠ [] ∧ ∀ it ∈ items, ∃ s, it = .str s ∧ SafeItem s

/-- A well-formed frontmatter map: distinct safe keys, well-formed values. -/
def WFFM (m : FM) : Prop :=
  (m.map Prod.fst).Nodup ∧ ∀ kv ∈ m, SafeKey kv.1 ∧ WFValue kv.2

/-- A line the YAML loop ignores entirely and that can never assign a key
or start an array: blank, comment, stray item, or no positive-index colon. -/
def junkLine (line : Str) : Bool :=
  let t := trim line
  t = [] || t.head? = some '#' || (strL "- ").isPrefixOf t ||
    (match firstOcc [':'] t with
     | none => true
     | some 0 => true
     | some _ => false)

instance (s : Str) : Decidable (HeadOk s) :=
  match h : s.head? with
  | some c => decidable_of_iff (isWs c = false) (by unfold HeadOk; rw [h])
  | none => isTrue (by unfold HeadOk; rw [h]; trivial)

instance (s : Str) : Decidable (LastOk s) :=
  match h : s.getLast? with
  | some c => decidable_of_iff (isWs c = false) (by unfold LastOk; rw [h])
  | none => isTrue (by unfold LastOk; rw [h]; trivial)

instance (k : Str) : Decidable (SafeKey k) := by
  unfold SafeKey; infer_instance

instance (s : Str) : Decidable (SafeStrVal s) := by
  unfold SafeStrVal; infer_instance

instance (s : Str) : Decidable (SafeItem s) := by
  unfold SafeItem; infer_instance

instance (a : FMAtom) : Decidable (WFAtom a) :=
  match a with
  | .str s => inferInstanceAs (Decidable (SafeStrVal s))
  | .nat _ => isTrue trivial
  | .float _ fp =>
    inferInstanceAs (Decidable (fp ≠ [] ∧ (∀ d ∈ fp, d < 10) ∧ fp.getLast? ≠ some 0))
  | .bool _ => isTrue trivial
  | .omitted => isFalse id

instance (it : FMAtom) : Decidable (∃ s, it = FMAtom.str s ∧ SafeItem s) :=
  match it with
  | .str s =>
    decidable_of_iff (SafeItem s)
      ⟨fun h => ⟨s, rfl, h⟩, fun ⟨_, he, h⟩ => by injection he with he'; exact he' ▸ h⟩
  | .nat _ => isFalse (fun ⟨_, he, _⟩ => by cases he)
  | .float _ _ => isFalse (fun ⟨_, he, _⟩ => by cases he)
  | .bool _ => isFalse (fun ⟨_, he, _⟩ => by cases he)
  | .omitted => isFalse (fun ⟨_, he, _⟩ => by cases he)

instance (v : FMValue) : Decidable (WFValue v) :=
  match v with
  | .atom a => inferInstanceAs (Decidable (WFAtom a))
  | .list items =>
    inferInstanceAs (Decidable (items ≠ [] ∧ ∀ it ∈ items, ∃ s, it = .str s ∧ SafeItem s))

instance (m : FM) : Decidable (WFFM m) := by
  unfold WFFM; infer_instance

/-- A parser state that is either clean or holds a pending array. -/
def stOf (fm0 : FM) (pend : Option (Str × List Str)) : PState :=
  match pend with
  | none => ⟨fm0, none, []⟩
  | some (k, its) => ⟨fm0, some k, its⟩

/-- The object after a pending array is flushed. -/
def flushFMState (fm0 : FM) (pend : Option (Str × List Str)) : FM :=
  match pend with
  | none => fm0
  | some (k, its) => setFMKey fm0 k (.list (its.map FMAtom.str))

/-- The key a pending array would claim. -/
def pendKeyList (pend : Option (Str × List Str)) : List Str :=
  match pend with
  | none => []
  | some (k, _) => [k]

end LinearSync

namespace LinearSync

/-! # Theorems

Substring machinery for the fence patterns, then the claims. -/

theorem occursAt_def (pat s : Str) (j : Nat) : OccursAt pat s j ↔ pat <+: s.drop j :=
  Iff.rfl

theorem firstOcc_some {pat : Str} : ∀ {s : Str} {i : Nat}, firstOcc pat s = some i →
    OccursAt pat s i ∧ ∀ j, j < i → ¬ OccursAt pat s j := by
  intro s
  induction s with
  | nil =>
    intro i h
    simp only [firstOcc] at h
    split at h
    · next hp =>
      cases h
      refine ⟨?_, ?_⟩
      · exact List.isPrefixOf_iff_prefix.mp hp
      · intro j hj
        omega
    · cases h
  | cons c t ih =>
    intro i h
    simp only [firstOcc] at h
    split at h
    · next hp =>
      cases h
      refine ⟨List.isPrefixOf_iff_prefix.mp hp, ?_⟩
      intro j hj
      omega
    · next hp =>
      rcases Option.map_eq_some'.mp h with ⟨i', hi', rfl⟩
      rcases ih hi' with ⟨h1, h2⟩
      refine ⟨h1, ?_⟩
      intro j hj
      cases j with
      | zero =>
        intro hc
        exact hp (List.isPrefixOf_iff_prefix.mpr hc)
      | succ j' =>
        intro hc
        exact h2 j' (by omega) hc

theorem firstOcc_none {pat : Str} : ∀ {s : Str}, firstOcc pat s = none →
    ∀ j, ¬ OccursAt pat s j := by
  intro s
  induction s with
  | nil =>
    intro h j hc
    simp only [firstOcc] at h
    split at h
    · cases h
    · next hp =>
      rw [occursAt_def, List.drop_nil] at hc
      exact hp (List.isPrefixOf_iff_prefix.mpr (by simpa using hc))
  | cons c t ih =>
    intro h j hc
    simp only [firstOcc] at h
    split at h
    · cases h
    · next hp =>
      have ht : firstOcc pat t = none := by
        cases he : firstOcc pat t with
        | none => rfl
        | some k => rw [he] at h; cases h
      cases j with
      | zero => exact hp (List.isPrefixOf_iff_prefix.mpr hc)
      | succ j' => exact ih ht j' hc

theorem firstOcc_of_occursAt {pat : Str} : ∀ {s : Str} {i : Nat}, OccursAt pat s i →
    ∃ j, j ≤ i ∧ firstOcc pat s = some j := by
  intro s
  induction s with
  | nil =>
    intro i h
    rw [occursAt_def, List.drop_nil] at h
    have : pat = [] := List.prefix_nil.mp h
    subst this
    exact ⟨0, Nat.zero_le _, by simp [firstOcc]⟩
  | cons c t ih =>
    intro i h
    by_cases hp : pat.isPrefixOf (c :: t) = true
    · exact ⟨0, Nat.zero_le _, by simp [firstOcc, hp]⟩
    · cases i with
      | zero =>
        exact absurd (List.isPrefixOf_iff_prefix.mpr h) (by simpa using hp)
      | succ i' =>
        rcases ih h with ⟨j, hj, he⟩
        refine ⟨j + 1, by omega, ?_⟩
        simp [firstOcc, hp, he]

theorem firstOcc_eq_some {pat s : Str} {i : Nat} (h1 : OccursAt pat s i)
    (h2 : ∀ j, j < i → ¬ OccursAt pat s j) : firstOcc pat s = some i := by
  rcases firstOcc_of_occursAt h1 with ⟨j, hj, he⟩
  rcases firstOcc_some he with ⟨ho, _⟩
  rcases Nat.lt_or_ge j i with hlt | hge
  · exact absurd ho (h2 j hlt)
  · have : j = i := by omega
    subst this
    exact he

theorem firstOcc_eq_none {pat s : Str} (h : ∀ j, ¬ OccursAt pat s j) :
    firstOcc pat s = none := by
  cases he : firstOcc pat s with
  | none => rfl
  | some i => exact absurd (firstOcc_some he).1 (h i)

/-- No fence-shaped pattern (`\n---` followed by anything) can occur
strictly inside `a` when `a` itself holds no `\n---` and the appended rest
starts with a newline. -/
theorem fence_not_early {a q w : Str} {rest : Str} (hrest : rest = nlC :: w)
    (h : firstOcc pat4 a = none) (j : Nat) (hj : j < a.length) :
    ¬ (nlC :: '-' :: '-' :: '-' :: q) <+: (a ++ rest).drop j := by
  intro hc
  rw [List.drop_append_of_le_length (Nat.le_of_lt hj)] at hc
  have hne : a.drop j ≠ [] := by
    rw [Ne, List.drop_eq_nil_iff]
    omega
  rcases List.exists_cons_of_ne_nil hne with ⟨c0, t0, h0⟩
  rw [h0, List.cons_append, List.cons_prefix_cons] at hc
  obtain ⟨hc0, hc⟩ := hc
  cases t0 with
  | nil =>
    rw [List.nil_append, hrest, List.cons_prefix_cons] at hc
    exact absurd hc.1 (by decide)
  | cons c1 t1 =>
    rw [List.cons_append, List.cons_prefix_cons] at hc
    obtain ⟨hc1, hc⟩ := hc
    cases t1 with
    | nil =>
      rw [List.nil_append, hrest, List.cons_prefix_cons] at hc
      exact absurd hc.1 (by decide)
    | cons c2 t2 =>
      rw [List.cons_append, List.cons_prefix_cons] at hc
      obtain ⟨hc2, hc⟩ := hc
      cases t2 with
      | nil =>
        rw [List.nil_append, hrest, List.cons_prefix_cons] at hc
        exact absurd hc.1 (by decide)
      | cons c3 t3 =>
        rw [List.cons_append, List.cons_prefix_cons] at hc
        obtain ⟨hc3, -⟩ := hc
        apply firstOcc_none h j
        rw [occursAt_def, h0, ← hc0, ← hc1, ← hc2, ← hc3]
        exact ⟨t3, rfl⟩

/-- The first `\n---` of `fm ++ \n--- ++ b` sits exactly at the fence when
`fm` holds none. -/
theorem fo_mid4 (a b : Str) (h : firstOcc pat4 a = none) :
    firstOcc pat4 (a ++ (pat4 ++ b)) = some a.length := by
  apply firstOcc_eq_some
  · rw [occursAt_def, List.drop_append_of_le_length (Nat.le_refl _), List.drop_length,
      List.nil_append]
    exact List.prefix_append _ _
  · intro j hj
    exact fence_not_early (q := []) (w := '-' :: '-' :: '-' :: b)
      (show pat4 ++ b = nlC :: ('-' :: '-' :: '-' :: b) from rfl) h j hj

/-- The first `\n---\n` of `fm ++ \n---\n ++ b` sits exactly at the fence
when `fm` holds no `\n---`. -/
theorem fo_mid5 (a b : Str) (h : firstOcc pat4 a = none) :
    firstOcc pat5 (a ++ (pat5 ++ b)) = some a.length := by
  apply firstOcc_eq_some
  · rw [occursAt_def, List.drop_append_of_le_length (Nat.le_refl _), List.drop_length,
      List.nil_append]
    exact List.prefix_append _ _
  · intro j hj
    exact fence_not_early (q := [nlC]) (w := '-' :: '-' :: '-' :: nlC :: b)
      (show pat5 ++ b = nlC :: ('-' :: '-' :: '-' :: nlC :: b) from rfl) h j hj

/-- The parse regex captures exactly the fenced text. -/
theorem fmBlockOf_decomp (y s : Str) (h : firstOcc pat4 y = none) :
    fmBlockOf (opener ++ (y ++ (pat5 ++ s))) = some y := by
  have hp : opener.isPrefixOf (opener ++ (y ++ (pat5 ++ s))) = true :=
    List.isPrefixOf_iff_prefix.mpr (List.prefix_append _ _)
  have hd : (opener ++ (y ++ (pat5 ++ s))).drop 4 = y ++ (pat5 ++ s) :=
    List.drop_left' (by rfl)
  have hsplit : y ++ (pat5 ++ s) = y ++ (pat4 ++ (nlC :: s)) := rfl
  unfold fmBlockOf
  rw [if_pos hp, hd, hsplit, fo_mid4 y (nlC :: s) h]
  simp only [Option.map_some']
  rw [List.take_left' rfl]

/-- `parseFrontmatter` on a fenced document parses exactly the fenced text. -/
theorem parseFrontmatter_decomp (y s : Str) (h : firstOcc pat4 y = none) :
    parseFrontmatter (opener ++ (y ++ (pat5 ++ s))) = parseLinesText y := by
  unfold parseFrontmatter
  rw [fmBlockOf_decomp y s h]

/-! ### Character, trim and membership utilities -/

theorem contains_iff_mem {c : Char} {s : Str} : s.contains c = true ↔ c ∈ s := by
  induction s with
  | nil => simp
  | cons d t ih =>
    simp only [List.contains_cons, List.mem_cons, Bool.or_eq_true, beq_iff_eq, ih]

theorem contains_eq_false_iff {c : Char} {s : Str} : s.contains c = false ↔ c ∉ s := by
  rw [← Bool.not_eq_true, not_iff_not]
  exact contains_iff_mem

/-- A replacement template without a dollar character is substituted
literally, whatever the fuel. -/
theorem getSubstitutionAux_no_dollar (matched before after g1 : Str) :
    ∀ (fuel : Nat) (tpl : Str), (∀ c ∈ tpl, c ≠ '$') →
      getSubstitutionAux matched before after g1 fuel tpl = tpl := by
  intro fuel
  induction fuel with
  | zero => intro tpl h; rfl
  | succ fuel ih =>
    intro tpl h
    cases tpl with
    | nil => rfl
    | cons c rest =>
      have hc : c ≠ '$' := h c (List.mem_cons_self _ _)
      simp only [getSubstitutionAux, if_neg hc]
      rw [ih rest (fun d hd => h d (List.mem_cons_of_mem c hd))]

/-- A replacement template without a dollar character is substituted
literally. -/
theorem getSubstitution_no_dollar (matched before after g1 tpl : Str)
    (h : ∀ c ∈ tpl, c ≠ '$') :
    getSubstitution matched before after g1 tpl = tpl :=
  getSubstitutionAux_no_dollar matched before after g1 (tpl.length + 1) tpl h

/-- The new frontmatter block has no dollar character when the serialized
frontmatter has none (the fences are dashes and newlines). -/
theorem newBlock_no_dollar {m : FM}
    (hnd : (serializeFrontmatter m).contains '$' = false) :
    ∀ c ∈ opener ++ serializeFrontmatter m ++ pat5, c ≠ '$' := by
  intro c hc he
  subst he
  rcases List.mem_append.mp hc with hc2 | hc2
  · rcases List.mem_append.mp hc2 with hc3 | hc3
    · exact absurd hc3 (by decide)
    · exact absurd hc3 (contains_eq_false_iff.mp hnd)
  · exact absurd hc2 (by decide)

/-- `updateFrontmatter` on a fenced document with a dollar-free serialized
frontmatter replaces exactly the fenced block and leaves the body
untouched. -/
theorem updateFrontmatter_decomp (y s : Str) (m : FM) (h : firstOcc pat4 y = none)
    (hnd : (serializeFrontmatter m).contains '$' = false) :
    updateFrontmatter (opener ++ (y ++ (pat5 ++ s))) m =
      opener ++ (serializeFrontmatter m ++ (pat5 ++ s)) := by
  have hp : opener.isPrefixOf (opener ++ (y ++ (pat5 ++ s))) = true :=
    List.isPrefixOf_iff_prefix.mpr (List.prefix_append _ _)
  have hd : (opener ++ (y ++ (pat5 ++ s))).drop 4 = y ++ (pat5 ++ s) :=
    List.drop_left' (by rfl)
  have hshape : opener ++ (y ++ (pat5 ++ s)) = (opener ++ y ++ pat5) ++ s := by
    simp [List.append_assoc]
  have hlen : (opener ++ y ++ pat5).length = 4 + y.length + 5 := by
    simp [opener, pat5]
    omega
  have htake : (y ++ (pat5 ++ s)).take y.length = y := List.take_left' rfl
  have hsub := getSubstitution_no_dollar (opener ++ y ++ pat5) [] s y
    (opener ++ serializeFrontmatter m ++ pat5) (newBlock_no_dollar hnd)
  unfold updateFrontmatter
  rw [if_pos hp, hd, fo_mid5 y s h]
  simp only
  rw [htake, hshape, List.drop_left' hlen, hsub]
  simp [List.append_assoc]

/-- With a dollar-free serialized frontmatter, `updateFrontmatter` always
produces an opener, the new serialized frontmatter, a closing fence, and
some tail. -/
theorem updateFrontmatter_shape (t : Str) (m : FM)
    (hnd : (serializeFrontmatter m).contains '$' = false) :
    ∃ s, updateFrontmatter t m = opener ++ (serializeFrontmatter m ++ (pat5 ++ s)) := by
  unfold updateFrontmatter
  by_cases hp : opener.isPrefixOf t = true
  · rw [if_pos hp]
    cases he : firstOcc pat5 (t.drop 4) with
    | none =>
      exact ⟨t, by simp [List.append_assoc]⟩
    | some i =>
      refine ⟨t.drop (4 + i + 5), ?_⟩
      simp only
      rw [getSubstitution_no_dollar _ _ _ _ _ (newBlock_no_dollar hnd)]
      simp [List.append_assoc]
  · rw [if_neg hp]
    exact ⟨t, by simp [List.append_assoc]⟩

theorem trimL_eq_self {s : Str} (h : HeadOk s) : trimL s = s := by
  cases s with
  | nil => rfl
  | cons c t =>
    unfold HeadOk at h
    simp only [List.head?_cons] at h
    simp [trimL, List.dropWhile_cons, h]

theorem trimR_eq_self {s : Str} (h : LastOk s) : trimR s = s := by
  unfold trimR
  have hrw : s.reverse.dropWhile isWs = s.reverse := by
    cases hr : s.reverse with
    | nil => rfl
    | cons c t =>
      have hc : s.getLast? = some c := by
        rw [← List.head?_reverse, hr, List.head?_cons]
      unfold LastOk at h
      rw [hc] at h
      simp [List.dropWhile_cons, h]
  rw [hrw, List.reverse_reverse]

theorem trim_eq_self {s : Str} (h1 : HeadOk s) (h2 : LastOk s) : trim s = s := by
  unfold trim
  rw [trimL_eq_self h1, trimR_eq_self h2]

theorem headOk_append_left {x y : Str} (hx : x ≠ []) (h : HeadOk x) : HeadOk (x ++ y) := by
  rcases List.exists_cons_of_ne_nil hx with ⟨c, t, rfl⟩
  unfold HeadOk at *
  simpa using h

theorem lastOk_append_right {x y : Str} (hy : y ≠ []) (h : LastOk y) : LastOk (x ++ y) := by
  unfold LastOk at *
  rw [List.getLast?_append]
  cases hg : y.getLast? with
  | none => exact absurd (List.getLast?_eq_none_iff.mp hg) hy
  | some c =>
    rw [hg] at h
    simpa using h

theorem headOk_of_forall {s : Str} (h : ∀ c ∈ s, isWs c = false) : HeadOk s := by
  unfold HeadOk
  cases s with
  | nil => trivial
  | cons c t => exact h c (List.mem_cons_self c t)

theorem lastOk_of_forall {s : Str} (h : ∀ c ∈ s, isWs c = false) : LastOk s := by
  unfold LastOk
  cases hg : s.getLast? with
  | none => trivial
  | some c => exact h c (List.mem_of_getLast?_eq_some hg)

theorem isWs_eq_false_of_isDigit {c : Char} (h : c.isDigit = true) : isWs c = false := by
  by_cases h1 : c = ' '
  · subst h1; exact absurd h (by decide)
  · by_cases h2 : c = tabC
    · subst h2; exact absurd h (by decide)
    · by_cases h3 : c = nlC
      · subst h3; exact absurd h (by decide)
      · by_cases h4 : c = crC
        · subst h4; exact absurd h (by decide)
        · simp [isWs, h1, h2, h3, h4]

theorem ne_of_isDigit {c x : Char} (hx : x.isDigit = false) (h : c.isDigit = true) :
    c ≠ x := by
  intro he
  rw [he, hx] at h
  cases h

/-! ### Digit strings -/

theorem digitVal_digitChar {d : Nat} (h : d < 10) : digitVal (digitChar d) = d := by
  interval_cases d <;> decide

theorem isDigit_digitChar {d : Nat} (h : d < 10) : (digitChar d).isDigit = true := by
  interval_cases d <;> decide

theorem natDigitsAux_lt : ∀ (fuel n : Nat), ∀ d ∈ natDigitsAux fuel n, d < 10 := by
  intro fuel
  induction fuel with
  | zero => intro n d hd; simp [natDigitsAux] at hd
  | succ fuel ih =>
    intro n d hd
    cases n with
    | zero => cases hd
    | succ m =>
      simp only [natDigitsAux, List.mem_cons] at hd
      rcases hd with rfl | hd
      · exact Nat.mod_lt _ (by omega)
      · exact ih _ _ hd

theorem natDigits_lt {n : Nat} : ∀ d ∈ natDigits n, d < 10 :=
  natDigitsAux_lt n n

theorem natDigitsAux_eq_digits : ∀ (fuel n : Nat), n ≤ fuel →
    natDigitsAux fuel n = Nat.digits 10 n := by
  intro fuel
  induction fuel with
  | zero =>
    intro n hn
    have : n = 0 := by omega
    subst this
    simp [natDigitsAux]
  | succ fuel ih =>
    intro n hn
    cases n with
    | zero => simp [natDigitsAux]
    | succ m =>
      have hdiv : (m + 1) / 10 ≤ fuel := by
        have := Nat.div_lt_self (Nat.succ_pos m) (by omega : 1 < 10)
        omega
      rw [natDigitsAux, ih _ hdiv, Nat.digits_def' (by omega : 1 < 10) (Nat.succ_pos m)]

theorem natDigits_eq_digits (n : Nat) : natDigits n = Nat.digits 10 n :=
  natDigitsAux_eq_digits n n (Nat.le_refl n)

theorem parseNatDigits_revmap {L : List Nat} (h : ∀ d ∈ L, d < 10) :
    parseNatDigits (L.reverse.map digitChar) = Nat.ofDigits 10 L := by
  induction L with
  | nil => simp [parseNatDigits, Nat.ofDigits]
  | cons d L ih =>
    have hd : d < 10 := h d (List.mem_cons_self d L)
    have hL : ∀ x ∈ L, x < 10 := fun x hx => h x (List.mem_cons_of_mem d hx)
    unfold parseNatDigits at *
    rw [List.reverse_cons, List.map_append, List.foldl_append, ih hL]
    simp [Nat.ofDigits_cons, digitVal_digitChar hd]
    ring

theorem parseNatDigits_natRepr (n : Nat) : parseNatDigits (natRepr n) = n := by
  unfold natRepr
  by_cases h : n = 0
  · subst h
    decide
  · rw [if_neg h, natDigits_eq_digits,
      parseNatDigits_revmap (fun d hd => Nat.digits_lt_base (by omega) hd),
      Nat.ofDigits_digits]

theorem natRepr_digits {n : Nat} : ∀ c ∈ natRepr n, c.isDigit = true := by
  unfold natRepr
  by_cases h : n = 0
  · subst h
    intro c hc
    simp at hc
    subst hc
    decide
  · rw [if_neg h]
    intro c hc
    rcases List.mem_map.mp hc with ⟨d, hd, rfl⟩
    exact isDigit_digitChar (natDigits_lt d (List.mem_reverse.mp hd))

theorem natRepr_ne_nil (n : Nat) : natRepr n ≠ [] := by
  unfold natRepr
  by_cases h : n = 0
  · subst h; simp
  · rw [if_neg h]
    cases n with
    | zero => exact absurd rfl h
    | succ m =>
      simp only [natDigits, natDigitsAux, ne_eq, List.map_eq_nil_iff,
        List.reverse_eq_nil_iff]
      exact fun hc => List.cons_ne_nil _ _ hc

/-! ### Scalar serialization round-trip -/

theorem mem_of_head?_eq_some {c : Char} {s : Str} (h : s.head? = some c) : c ∈ s := by
  cases s with
  | nil => cases h
  | cons d t =>
    simp only [List.head?_cons, Option.some.injEq] at h
    subst h
    exact List.mem_cons_self _ _

theorem contains_eq_false_of_forall {x : Char} {s : Str} (h : ∀ c ∈ s, c ≠ x) :
    s.contains x = false :=
  contains_eq_false_iff.mpr (fun hm => (h x hm) rfl)

theorem isQuotedBy_eq_false {q : Char} {s : Str} (h : s.contains q = false) :
    isQuotedBy q s = false := by
  unfold isQuotedBy
  cases hh : s.head? with
  | none => simp
  | some c =>
    have hne : c ≠ q := fun he =>
      absurd (contains_eq_false_iff.mp h) (by
        rw [← he] at *
        exact fun hn => hn (mem_of_head?_eq_some hh))
    simp [hne]

theorem takeWhile_append_stop {p : Char → Bool} {x : Str} {c : Char} {y : Str}
    (hx : ∀ a ∈ x, p a = true) (hc : p c = false) :
    (x ++ c :: y).takeWhile p = x := by
  induction x with
  | nil => simp [List.takeWhile_cons, hc]
  | cons d t ih =>
    have hd : p d = true := hx d (List.mem_cons_self _ _)
    simp only [List.cons_append, List.takeWhile_cons, hd, if_true]
    rw [ih (fun a ha => hx a (List.mem_cons_of_mem d ha))]

theorem serializeAtom_str_unquoted {s : Str} (h4 : s.contains ':' = false)
    (h5 : s.contains '#' = false) (h6 : s.contains nlC = false) :
    serializeAtom (.str s) = s := by
  show (if (s.contains ':' || s.contains '#' || s.contains nlC) = true
      then quoteC :: (escQuotes s ++ [quoteC]) else s) = s
  rw [h4, h5, h6]
  simp

theorem serializeAtom_str {s : Str} (h : SafeStrVal s) : serializeAtom (.str s) = s := by
  obtain ⟨-, -, -, h4, h5, h6, -, -, -, -, -, -⟩ := h
  exact serializeAtom_str_unquoted h4 h5 h6

theorem parseValue_str {s : Str} (h : SafeStrVal s) : parseValue s = vStr s := by
  obtain ⟨-, -, -, -, -, -, h7, h8, h9, h10, h11, h12⟩ := h
  have hq1 : isQuotedBy quoteC s = false := isQuotedBy_eq_false h7
  have hq2 : isQuotedBy squoteC s = false := isQuotedBy_eq_false h8
  simp [parseValue, hq1, hq2, h11, h12, h9, h10]

theorem parseValue_natRepr (n : Nat) : parseValue (natRepr n) = vNat n := by
  have hq : ∀ q : Char, q.isDigit = false → (natRepr n).contains q = false := fun q hqd =>
    contains_eq_false_of_forall (fun c hc => ne_of_isDigit hqd (natRepr_digits c hc))
  have hq1 : isQuotedBy quoteC (natRepr n) = false :=
    isQuotedBy_eq_false (hq quoteC (by decide))
  have hq2 : isQuotedBy squoteC (natRepr n) = false :=
    isQuotedBy_eq_false (hq squoteC (by decide))
  have hall : (natRepr n).all Char.isDigit = true :=
    List.all_eq_true.mpr natRepr_digits
  simp [parseValue, hq1, hq2, natRepr_ne_nil n, hall, parseNatDigits_natRepr]

theorem parseValue_float {ip : Nat} {fp : List Nat} (h1 : fp ≠ [])
    (h2 : ∀ d ∈ fp, d < 10) (h3 : fp.getLast? ≠ some 0) :
    parseValue (serializeAtom (.float ip fp)) = .atom (.float ip fp) := by
  have hmem : ∀ c ∈ natRepr ip ++ '.' :: fp.map digitChar,
      c.isDigit = true ∨ c = '.' := by
    intro c hc
    rcases List.mem_append.mp hc with hc | hc
    · exact Or.inl (natRepr_digits c hc)
    · rcases List.mem_cons.mp hc with rfl | hc
      · exact Or.inr rfl
      · rcases List.mem_map.mp hc with ⟨d, hd, rfl⟩
        exact Or.inl (isDigit_digitChar (h2 d hd))
  have hq : ∀ q : Char, q.isDigit = false → q ≠ '.' →
      (natRepr ip ++ '.' :: fp.map digitChar).contains q = false := by
    intro q hqd hqdot
    apply contains_eq_false_of_forall
    intro c hc
    rcases hmem c hc with hd | rfl
    · exact ne_of_isDigit hqd hd
    · exact fun he => hqdot he.symm
  have hq1 : isQuotedBy quoteC (natRepr ip ++ '.' :: fp.map digitChar) = false :=
    isQuotedBy_eq_false (hq quoteC (by decide) (by decide))
  have hq2 : isQuotedBy squoteC (natRepr ip ++ '.' :: fp.map digitChar) = false :=
    isQuotedBy_eq_false (hq squoteC (by decide) (by decide))
  have hdotmem : '.' ∈ natRepr ip ++ '.' :: fp.map digitChar :=
    List.mem_append.mpr (Or.inr (List.mem_cons_self _ _))
  have hall : (natRepr ip ++ '.' :: fp.map digitChar).all Char.isDigit = false := by
    rw [Bool.eq_false_iff]
    intro hall
    exact absurd (List.all_eq_true.mp hall '.' hdotmem) (by decide)
  have htw : (natRepr ip ++ '.' :: fp.map digitChar).takeWhile Char.isDigit = natRepr ip :=
    takeWhile_append_stop natRepr_digits (by decide)
  have hfs : floatSplit (natRepr ip ++ '.' :: fp.map digitChar) =
      some (natRepr ip, fp.map digitChar) := by
    unfold floatSplit
    simp only [htw, List.drop_left]
    have hbne : fp.map digitChar ≠ [] := by
      simpa [List.map_eq_nil_iff] using h1
    have hball : (fp.map digitChar).all Char.isDigit = true :=
      List.all_eq_true.mpr (by
        intro c hc
        rcases List.mem_map.mp hc with ⟨d, hd, rfl⟩
        exact isDigit_digitChar (h2 d hd))
    simp [natRepr_ne_nil ip, hbne, hball]
  have hvals : (fp.map digitChar).map digitVal = fp := by
    rw [List.map_map]
    have : ∀ d ∈ fp, (digitVal ∘ digitChar) d = id d := fun d hd => by
      simp [Function.comp, digitVal_digitChar (h2 d hd)]
    rw [List.map_congr_left this, List.map_id]
  have hrev : fp.reverse.dropWhile (· = 0) = fp.reverse := by
    cases hr : fp.reverse with
    | nil => rfl
    | cons c t =>
      have hc : fp.getLast? = some c := by
        rw [← List.head?_reverse, hr, List.head?_cons]
      have : ¬ (c = 0) := fun he => h3 (by rw [hc, he])
      simp [List.dropWhile_cons, this]
  rw [show serializeAtom (.float ip fp) = natRepr ip ++ '.' :: fp.map digitChar from rfl]
  unfold parseValue
  rw [hq1, hq2]
  simp only [Bool.or_self, Bool.false_eq_true, if_false, hall, Bool.and_false, hfs]
  simp only [hvals, hrev, List.reverse_reverse]
  simp [h1, parseNatDigits_natRepr]

theorem parseValue_serializeAtom {a : FMAtom} (h : WFAtom a) :
    parseValue (serializeAtom a) = .atom a := by
  cases a with
  | str s => rw [serializeAtom_str h]; exact parseValue_str h
  | nat n => exact parseValue_natRepr n
  | float ip fp =>
    obtain ⟨h1, h2, h3⟩ := h
    exact parseValue_float h1 h2 h3
  | bool b => cases b <;> decide
  | omitted => exact h.elim

/-- The shape facts about a serialized well-formed scalar that the line
parser's computations rely on. -/
theorem serializeAtom_props {a : FMAtom} (h : WFAtom a) :
    serializeAtom a ≠ [] ∧ HeadOk (serializeAtom a) ∧ LastOk (serializeAtom a) ∧
      (serializeAtom a).contains ':' = false ∧ (serializeAtom a).contains nlC = false := by
  cases a with
  | str s =>
    rw [serializeAtom_str h]
    obtain ⟨h1, h2, h3, h4, -, h6, -, -, -, -, -, -⟩ := h
    exact ⟨h1, h2, h3, h4, h6⟩
  | nat n =>
    have hd := natRepr_digits (n := n)
    have hws : ∀ c ∈ natRepr n, isWs c = false :=
      fun c hc => isWs_eq_false_of_isDigit (hd c hc)
    refine ⟨natRepr_ne_nil n, headOk_of_forall hws, lastOk_of_forall hws, ?_, ?_⟩
    · exact contains_eq_false_of_forall fun c hc => ne_of_isDigit (by decide) (hd c hc)
    · exact contains_eq_false_of_forall fun c hc => ne_of_isDigit (by decide) (hd c hc)
  | float ip fp =>
    obtain ⟨h1, h2, -⟩ := h
    have hser : serializeAtom (.float ip fp) = natRepr ip ++ '.' :: fp.map digitChar := rfl
    have hmem : ∀ c ∈ natRepr ip ++ '.' :: fp.map digitChar,
        c.isDigit = true ∨ c = '.' := by
      intro c hc
      rcases List.mem_append.mp hc with hc | hc
      · exact Or.inl (natRepr_digits c hc)
      · rcases List.mem_cons.mp hc with rfl | hc
        · exact Or.inr rfl
        · rcases List.mem_map.mp hc with ⟨d, hd, rfl⟩
          exact Or.inl (isDigit_digitChar (h2 d hd))
    have hws : ∀ c ∈ natRepr ip ++ '.' :: fp.map digitChar, isWs c = false := by
      intro c hc
      rcases hmem c hc with hd | rfl
      · exact isWs_eq_false_of_isDigit hd
      · decide
    rw [hser]
    refine ⟨?_, headOk_of_forall hws, lastOk_of_forall hws, ?_, ?_⟩
    · simp [List.append_eq_nil, natRepr_ne_nil ip]
    · refine contains_eq_false_of_forall fun c hc => ?_
      rcases hmem c hc with hd | rfl
      · exact ne_of_isDigit (by decide) hd
      · decide
    · refine contains_eq_false_of_forall fun c hc => ?_
      rcases hmem c hc with hd | rfl
      · exact ne_of_isDigit (by decide) hd
      · decide
  | bool b =>
    cases b
    · exact ⟨by decide, headOk_of_forall (by decide), lastOk_of_forall (by decide),
        by decide, by decide⟩
    · exact ⟨by decide, headOk_of_forall (by decide), lastOk_of_forall (by decide),
        by decide, by decide⟩
  | omitted => exact h.elim

/-- Assignment of a fresh key appends. -/
theorem setFMKey_append {m : FM} {k : Str} {v : FMValue}
    (h : k ∉ m.map Prod.fst) : setFMKey m k v = m ++ [(k, v)] := by
  induction m with
  | nil => rfl
  | cons kv t ih =>
    cases kv with
    | mk k' v' =>
      simp only [List.map_cons, List.mem_cons] at h
      push_neg at h
      simp only [setFMKey, if_neg (Ne.symm h.1), List.cons_append]
      rw [ih h.2]

theorem not_mem_of_nodup_append_cons {xs y : List Str} {k : Str}
    (h : (xs ++ k :: y).Nodup) : k ∉ xs := by
  rw [List.nodup_append] at h
  exact fun hm => h.2.2 hm (List.mem_cons_self _ _)

/-! ### The YAML line loop on serialized entries -/

theorem firstOcc_singleton_mid {x : Char} {k r : Str} (h : k.contains x = false) :
    firstOcc [x] (k ++ x :: r) = some k.length := by
  apply firstOcc_eq_some
  · rw [occursAt_def, List.drop_left]
    exact ⟨r, rfl⟩
  · intro j hj hc
    rw [occursAt_def, List.drop_append_of_le_length (Nat.le_of_lt hj)] at hc
    have hne : k.drop j ≠ [] := by rw [Ne, List.drop_eq_nil_iff]; omega
    rcases List.exists_cons_of_ne_nil hne with ⟨c, t, hct⟩
    rw [hct, List.cons_append, List.cons_prefix_cons] at hc
    have hmem : x ∈ k := by
      rw [hc.1]
      exact List.mem_of_mem_drop (hct ▸ List.mem_cons_self c t)
    exact absurd hmem (contains_eq_false_iff.mp h)

theorem head?_append_left {k r : Str} (hk : k ≠ []) : (k ++ r).head? = k.head? := by
  rcases List.exists_cons_of_ne_nil hk with ⟨c, t, rfl⟩
  simp

theorem trim_space_cons {s : Str} (h1 : HeadOk s) (h2 : LastOk s) :
    trim (' ' :: s) = s := by
  unfold trim trimL
  rw [List.dropWhile_cons]
  simp only [show isWs ' ' = true by decide, if_true]
  rw [show s.dropWhile isWs = s from trimL_eq_self h1]
  exact trimR_eq_self h2

theorem step_item {fm : FM} {k : Str} {ca : List Str} {s : Str} (hs : SafeItem s) :
    parseLineStep ⟨fm, some k, ca⟩ (strL "  - " ++ s) = ⟨fm, some k, ca ++ [s]⟩ := by
  obtain ⟨hs1, hs2, hs3, -, -, -⟩ := hs
  have w1 : isWs ' ' = true := by decide
  have w2 : isWs '-' = false := by decide
  have htrimL : trimL (strL "  - " ++ s) = '-' :: ' ' :: s := by
    show List.dropWhile isWs (' ' :: ' ' :: '-' :: ' ' :: s) = '-' :: ' ' :: s
    simp [List.dropWhile_cons, w1, w2]
  have hlast : LastOk ('-' :: ' ' :: s) := lastOk_append_right (x := ['-', ' ']) hs1 hs3
  have ht : trim (strL "  - " ++ s) = '-' :: ' ' :: s := by
    unfold trim
    rw [htrimL]
    exact trimR_eq_self hlast
  have hpre : (strL "- ").isPrefixOf ('-' :: ' ' :: s) = true :=
    List.isPrefixOf_iff_prefix.mpr ⟨s, rfl⟩
  simp only [parseLineStep, ht, hpre]
  have hcond : (('-' :: ' ' :: s : Str) = [] || ('-' :: ' ' :: s : Str).head? = some '#') =
      false := by simp
  rw [hcond]
  simp only [Bool.false_eq_true, if_false, if_true]
  have hdrop : ('-' :: ' ' :: s : Str).drop 2 = s := rfl
  rw [hdrop, trim_eq_self hs2 hs3]

theorem step_key {fm0 : FM} {pend : Option (Str × List Str)} {k : Str}
    (hpend : ∀ k0 its, pend = some (k0, its) → its ≠ []) (hk : SafeKey k) :
    parseLineStep (stOf fm0 pend) (k ++ [':']) =
      ⟨flushFMState fm0 pend, some k, []⟩ := by
  obtain ⟨hk1, hk2, hk3, hk4, -, hk6, hk7⟩ := hk
  have hlast : LastOk (k ++ [':']) := lastOk_append_right (by simp)
    (by unfold LastOk; simp; decide)
  have ht : trim (k ++ [':']) = k ++ [':'] :=
    trim_eq_self (headOk_append_left hk1 hk2) hlast
  have hh : (k ++ [':']).head? = k.head? := head?_append_left hk1
  have hcond : ((k ++ [':'] : Str) = [] || (k ++ [':'] : Str).head? = some '#') = false := by
    simp [hh, hk6, hk1]
  have hpre : (strL "- ").isPrefixOf (k ++ [':']) = false := by
    cases hp : (strL "- ").isPrefixOf (k ++ [':']) with
    | false => rfl
    | true =>
      exfalso
      rcases List.isPrefixOf_iff_prefix.mp hp with ⟨t0, ht0⟩
      have : (k ++ [':']).head? = some '-' := by rw [← ht0]; rfl
      rw [hh] at this
      exact hk7 this
  have hco : firstOcc [':'] (k ++ [':']) = some k.length :=
    firstOcc_singleton_mid (r := []) hk4
  have hklen : 0 < k.length := List.length_pos.mpr hk1
  have htake : (k ++ [':']).take k.length = k := List.take_left _ _
  have hdrop : (k ++ [':']).drop (k.length + 1) = [] := by
    rw [List.drop_eq_nil_iff]
    simp
  simp only [parseLineStep, ht, hcond, Bool.false_eq_true, if_false, hpre, hco]
  cases pend with
  | none =>
    simp only [stOf]
    simp [hklen, htake, hdrop, trim_eq_self hk2 hk3, flushFMState,
      show trim ([] : Str) = [] from rfl]
  | some kits =>
    cases kits with
    | mk k0 its =>
      have hits : its ≠ [] := hpend k0 its rfl
      simp only [stOf]
      simp [hklen, htake, hdrop, trim_eq_self hk2 hk3, flushFMState, hits,
        show trim ([] : Str) = [] from rfl]

theorem step_scalar {fm0 : FM} {pend : Option (Str × List Str)} {k : Str} {a : FMAtom}
    (hpend : ∀ k0 its, pend = some (k0, its) → its ≠ []) (hk : SafeKey k)
    (ha : WFAtom a) :
    parseLineStep (stOf fm0 pend) (k ++ ':' :: ' ' :: serializeAtom a) =
      ⟨setFMKey (flushFMState fm0 pend) k (.atom a), none, []⟩ := by
  obtain ⟨hk1, hk2, hk3, hk4, -, hk6, hk7⟩ := hk
  obtain ⟨hs1, hs2, hs3, hs4, -⟩ := serializeAtom_props ha
  set sv := serializeAtom a with hsv
  have hlast : LastOk (k ++ ':' :: ' ' :: sv) :=
    lastOk_append_right (by simp) (lastOk_append_right (x := [':', ' ']) hs1 hs3)
  have ht : trim (k ++ ':' :: ' ' :: sv) = k ++ ':' :: ' ' :: sv :=
    trim_eq_self (headOk_append_left hk1 hk2) hlast
  have hh : (k ++ ':' :: ' ' :: sv).head? = k.head? := head?_append_left hk1
  have hcond : ((k ++ ':' :: ' ' :: sv : Str) = [] ||
      (k ++ ':' :: ' ' :: sv : Str).head? = some '#') = false := by
    simp [hh, hk6, hk1]
  have hpre : (strL "- ").isPrefixOf (k ++ ':' :: ' ' :: sv) = false := by
    cases hp : (strL "- ").isPrefixOf (k ++ ':' :: ' ' :: sv) with
    | false => rfl
    | true =>
      exfalso
      rcases List.isPrefixOf_iff_prefix.mp hp with ⟨t0, ht0⟩
      have : (k ++ ':' :: ' ' :: sv).head? = some '-' := by rw [← ht0]; rfl
      rw [hh] at this
      exact hk7 this
  have hco : firstOcc [':'] (k ++ ':' :: ' ' :: sv) = some k.length :=
    firstOcc_singleton_mid (r := ' ' :: sv) hk4
  have hklen : 0 < k.length := List.length_pos.mpr hk1
  have htake : (k ++ ':' :: ' ' :: sv).take k.length = k := List.take_left _ _
  have hdrop : (k ++ ':' :: ' ' :: sv).drop (k.length + 1) = ' ' :: sv := by
    have hsplit : k ++ ':' :: ' ' :: sv = (k ++ [':']) ++ (' ' :: sv) := by simp
    rw [hsplit]
    exact List.drop_left' (by simp)
  have hval : trim (' ' :: sv) = sv := trim_space_cons hs2 hs3
  simp only [parseLineStep, ht, hcond, Bool.false_eq_true, if_false, hpre, hco]
  cases pend with
  | none =>
    simp only [stOf]
    simp [hklen, htake, hdrop, trim_eq_self hk2 hk3, flushFMState, hval, hs1,
      parseValue_serializeAtom ha]
  | some kits =>
    cases kits with
    | mk k0 its =>
      have hits : its ≠ [] := hpend k0 its rfl
      simp only [stOf]
      simp [hklen, htake, hdrop, trim_eq_self hk2 hk3, flushFMState, hits, hval, hs1,
        parseValue_serializeAtom ha]

theorem foldl_items {its : List Str} : ∀ {fm : FM} {k : Str} {ca : List Str},
    (∀ s ∈ its, SafeItem s) →
    List.foldl parseLineStep ⟨fm, some k, ca⟩ (its.map (fun s => strL "  - " ++ s)) =
      ⟨fm, some k, ca ++ its⟩ := by
  induction its with
  | nil => intro fm k ca _; simp
  | cons s its ih =>
    intro fm k ca h
    simp only [List.map_cons, List.foldl_cons]
    rw [step_item (h s (List.mem_cons_self _ _)),
      ih (fun x hx => h x (List.mem_cons_of_mem _ hx))]
    simp

theorem exists_str_list {items : List FMAtom}
    (h : ∀ it ∈ items, ∃ s, it = .str s ∧ SafeItem s) :
    ∃ ss : List Str, items = ss.map FMAtom.str ∧ ∀ s ∈ ss, SafeItem s := by
  induction items with
  | nil => exact ⟨[], rfl, by simp⟩
  | cons it items ih =>
    rcases h it (List.mem_cons_self _ _) with ⟨s, rfl, hs⟩
    rcases ih (fun x hx => h x (List.mem_cons_of_mem _ hx)) with ⟨ss, hss, hsafe⟩
    refine ⟨s :: ss, by rw [hss]; rfl, ?_⟩
    intro x hx
    rcases List.mem_cons.mp hx with rfl | hx
    · exact hs
    · exact hsafe x hx

theorem entryLines_atom {k : Str} {a : FMAtom} (h : WFAtom a) :
    entryLines (k, .atom a) = [k ++ ':' :: ' ' :: serializeAtom a] := by
  cases a with
  | str s => rfl
  | nat n => rfl
  | float ip fp => rfl
  | bool b => rfl
  | omitted => exact h.elim

/-- Running the YAML line loop over the serialized lines of well-formed
entries extends the accumulated object by exactly those entries. -/
theorem parseGo_entries :
    ∀ (es : FM) (fm0 : FM) (pend : Option (Str × List Str)),
    (∀ kv ∈ es, SafeKey kv.1 ∧ WFValue kv.2) →
    (∀ k0 its, pend = some (k0, its) → its ≠ []) →
    (fm0.map Prod.fst ++ (pendKeyList pend ++ es.map Prod.fst)).Nodup →
    finishParse (List.foldl parseLineStep (stOf fm0 pend) (es.map entryLines).flatten) =
      flushFMState fm0 pend ++ es := by
  intro es
  induction es with
  | nil =>
    intro fm0 pend _ hpend _
    simp only [List.map_nil, List.flatten_nil, List.foldl_nil, List.append_nil]
    cases pend with
    | none => rfl
    | some kits =>
      cases kits with
      | mk k0 its =>
        have hits : its ≠ [] := hpend k0 its rfl
        simp [stOf, finishParse, flushFMState, hits]
  | cons kv es ih =>
    intro fm0 pend hwf hpend hnd
    obtain ⟨hk, hv⟩ := hwf kv (List.mem_cons_self _ _)
    have hwf' : ∀ kv' ∈ es, SafeKey kv'.1 ∧ WFValue kv'.2 :=
      fun kv' h' => hwf kv' (List.mem_cons_of_mem _ h')
    have hkeys : (flushFMState fm0 pend).map Prod.fst =
        fm0.map Prod.fst ++ pendKeyList pend := by
      cases pend with
      | none => simp [flushFMState, pendKeyList]
      | some kits =>
        cases kits with
        | mk k0 its =>
          have hk0 : k0 ∉ fm0.map Prod.fst := by
            apply not_mem_of_nodup_append_cons (y := kv.1 :: es.map Prod.fst)
            simpa using hnd
          simp [flushFMState, pendKeyList, setFMKey_append hk0]
    have hkfresh : kv.1 ∉ (flushFMState fm0 pend).map Prod.fst := by
      rw [hkeys]
      apply not_mem_of_nodup_append_cons (y := es.map Prod.fst)
      simpa [List.append_assoc] using hnd
    cases kv with
    | mk k v =>
      cases v with
      | atom a =>
        have ha : WFAtom a := hv
        simp only [List.map_cons, List.flatten_cons, entryLines_atom ha,
          List.singleton_append, List.foldl_cons]
        rw [step_scalar hpend hk ha]
        rw [setFMKey_append hkfresh]
        have hrec := ih (flushFMState fm0 pend ++ [(k, FMValue.atom a)]) none hwf'
          (by intro k0 its h'; cases h') ?nd
        case nd =>
          simp only [pendKeyList, List.nil_append, List.map_append, hkeys]
          simp only [List.append_assoc, List.map_cons, List.map_nil,
            List.singleton_append, List.cons_append, List.nil_append]
          simpa [List.append_assoc] using hnd
        rw [show (⟨flushFMState fm0 pend ++ [(k, FMValue.atom a)], none, []⟩ : PState) =
          stOf (flushFMState fm0 pend ++ [(k, FMValue.atom a)]) none from rfl]
        rw [hrec, flushFMState]
        simp
      | list items =>
        obtain ⟨hne, hall⟩ := hv
        rcases exists_str_list hall with ⟨ss, rfl, hsafe⟩
        have hssne : ss ≠ [] := by
          intro h'
          rw [h'] at hne
          exact hne rfl
        have hlines : entryLines (k, FMValue.list (ss.map FMAtom.str)) =
            (k ++ [':']) :: ss.map (fun s => strL "  - " ++ s) := by
          show (if ss.map FMAtom.str = [] then []
            else (k ++ [':']) ::
              (ss.map FMAtom.str).map (fun it => strL "  - " ++ serializeAtom it)) =
            (k ++ [':']) :: ss.map (fun s => strL "  - " ++ s)
          rw [if_neg (by simpa using hne)]
          congr 1
          rw [List.map_map]
          apply List.map_congr_left
          intro s hs
          obtain ⟨-, -, -, h4, h5, h6⟩ := hsafe s hs
          simp [Function.comp, serializeAtom_str_unquoted h4 h5 h6]
        simp only [List.map_cons, List.flatten_cons, hlines, List.cons_append,
          List.foldl_cons]
        rw [step_key hpend hk]
        rw [List.foldl_append]
        rw [foldl_items hsafe]
        have hrec := ih (flushFMState fm0 pend) (some (k, ss)) hwf'
          (by intro k0 its h'; cases h'; exact hssne) ?nd2
        case nd2 =>
          simp only [pendKeyList, hkeys]
          simpa [List.append_assoc] using hnd
        rw [show (⟨flushFMState fm0 pend, some k, [] ++ ss⟩ : PState) =
          stOf (flushFMState fm0 pend) (some (k, ss)) from by simp [stOf]]
        rw [hrec]
        rw [show flushFMState (flushFMState fm0 pend) (some (k, ss)) =
          setFMKey (flushFMState fm0 pend) k (FMValue.list (ss.map FMAtom.str)) from rfl]
        rw [setFMKey_append hkfresh]
        simp

/-! ### Joining and splitting serialized lines -/

theorem contains_cons_false {c d : Char} {t : Str} (h : (d :: t).contains c = false) :
    c ≠ d ∧ t.contains c = false := by
  have hm := contains_eq_false_iff.mp h
  simp only [List.mem_cons] at hm
  push_neg at hm
  exact ⟨hm.1, contains_eq_false_iff.mpr hm.2⟩

theorem splitOnNl_no_nl {s : Str} (h : s.contains nlC = false) : splitOnNl s = [s] := by
  induction s with
  | nil => rfl
  | cons c t ih =>
    obtain ⟨hc, ht⟩ := contains_cons_false h
    simp only [splitOnNl, if_neg (Ne.symm hc)]
    rw [ih ht]

theorem splitOnNl_append_nl {l : Str} (r : Str) (h : l.contains nlC = false) :
    splitOnNl (l ++ nlC :: r) = l :: splitOnNl r := by
  induction l with
  | nil => simp [splitOnNl]
  | cons c t ih =>
    obtain ⟨hc, ht⟩ := contains_cons_false h
    show (if c = nlC then [] :: splitOnNl (t ++ nlC :: r)
      else match splitOnNl (t ++ nlC :: r) with
        | [] => [[c]]
        | h :: rr => (c :: h) :: rr) = (c :: t) :: splitOnNl r
    rw [if_neg (Ne.symm hc), ih ht]

theorem splitOnNl_joinNl {L : List Str} (hne : L ≠ [])
    (h : ∀ l ∈ L, l.contains nlC = false) : splitOnNl (joinNl L) = L := by
  induction L with
  | nil => exact absurd rfl hne
  | cons l L ih =>
    cases L with
    | nil => exact splitOnNl_no_nl (h l (List.mem_cons_self _ _))
    | cons l2 L2 =>
      show splitOnNl (l ++ nlC :: joinNl (l2 :: L2)) = l :: l2 :: L2
      rw [splitOnNl_append_nl _ (h l (List.mem_cons_self _ _)),
        ih (List.cons_ne_nil _ _) (fun x hx => h x (List.mem_cons_of_mem _ hx))]

theorem joinNl_head_ne_dash {l2 : Str} {L : List Str} (h : l2.head? ≠ some '-') :
    (joinNl (l2 :: L)).head? ≠ some '-' := by
  cases L with
  | nil => simpa [joinNl] using h
  | cons l3 L3 =>
    show (l2 ++ nlC :: joinNl (l3 :: L3)).head? ≠ some '-'
    cases l2 with
    | nil =>
      simp only [List.nil_append, List.head?_cons]
      intro hc
      rw [Option.some.injEq] at hc
      exact absurd hc (by decide)
    | cons c2 t2 => simpa using h

theorem joinNl_no_nlDash {L : List Str} (h1 : ∀ l ∈ L, l.contains nlC = false)
    (h2 : ∀ l ∈ L, l.head? ≠ some '-') :
    ∀ j, ¬ OccursAt [nlC, '-'] (joinNl L) j := by
  induction L with
  | nil =>
    intro j hc
    rw [occursAt_def, show joinNl [] = [] from rfl, List.drop_nil] at hc
    have := List.prefix_nil.mp hc
    simp at this
  | cons l L ih =>
    cases L with
    | nil =>
      intro j hc
      rw [occursAt_def] at hc
      rcases hc with ⟨t, ht⟩
      have hm : nlC ∈ (joinNl [l]).drop j := by
        rw [← ht]
        exact List.mem_cons_self _ _
      have : nlC ∈ l := List.mem_of_mem_drop hm
      exact absurd this (contains_eq_false_iff.mp (h1 l (List.mem_cons_self _ _)))
    | cons l2 L2 =>
      intro j hc
      have hl1 : l.contains nlC = false := h1 l (List.mem_cons_self _ _)
      rw [occursAt_def] at hc
      change [nlC, '-'] <+: (l ++ nlC :: joinNl (l2 :: L2)).drop j at hc
      rcases Nat.lt_trichotomy j l.length with hj | hj | hj
      · rw [List.drop_append_of_le_length (Nat.le_of_lt hj)] at hc
        have hne : l.drop j ≠ [] := by rw [Ne, List.drop_eq_nil_iff]; omega
        rcases List.exists_cons_of_ne_nil hne with ⟨c, t, hct⟩
        rw [hct, List.cons_append, List.cons_prefix_cons] at hc
        have : nlC ∈ l := by
          rw [hc.1]
          exact List.mem_of_mem_drop (hct ▸ List.mem_cons_self c t)
        exact absurd this (contains_eq_false_iff.mp hl1)
      · subst hj
        rw [List.drop_left] at hc
        rw [List.cons_prefix_cons] at hc
        rcases hc.2 with ⟨t, ht⟩
        have : (joinNl (l2 :: L2)).head? = some '-' := by
          rw [← ht]
          rfl
        exact absurd this (joinNl_head_ne_dash (h2 l2 (List.mem_cons_of_mem _
          (List.mem_cons_self _ _))))
      · obtain ⟨j', rfl⟩ : ∃ j', j = l.length + 1 + j' :=
          ⟨j - l.length - 1, by omega⟩
        have hd : (l ++ nlC :: joinNl (l2 :: L2)).drop (l.length + 1 + j') =
            (joinNl (l2 :: L2)).drop j' := by
          have hsh : l ++ nlC :: joinNl (l2 :: L2) = (l ++ [nlC]) ++ joinNl (l2 :: L2) := by
            simp
          rw [hsh, show l.length + 1 + j' = (l ++ [nlC]).length + j' by simp]
          exact List.drop_append j'
        rw [hd] at hc
        exact ih (fun x hx => h1 x (List.mem_cons_of_mem _ hx))
          (fun x hx => h2 x (List.mem_cons_of_mem _ hx)) j' hc

theorem entryLines_line_props {kv : Str × FMValue} (hk : SafeKey kv.1) (hv : WFValue kv.2) :
    ∀ l ∈ entryLines kv, l ≠ [] ∧ l.contains nlC = false ∧ l.head? ≠ some '-' := by
  cases kv with
  | mk k v =>
    obtain ⟨hk1, hk2, hk3, hk4, hk5, hk6, hk7⟩ := hk
    cases v with
    | atom a =>
      rw [entryLines_atom hv]
      intro l hl
      simp only [List.mem_singleton] at hl
      subst hl
      obtain ⟨hs1, -, -, -, hs5⟩ := serializeAtom_props hv
      refine ⟨by simp [hk1], ?_, ?_⟩
      · apply contains_eq_false_of_forall
        intro c hc
        rcases List.mem_append.mp hc with hc | hc
        · exact fun he => absurd (he ▸ hc) (contains_eq_false_iff.mp hk5)
        · rcases List.mem_cons.mp hc with rfl | hc
          · decide
          · rcases List.mem_cons.mp hc with rfl | hc
            · decide
            · exact fun he => absurd (he ▸ hc) (contains_eq_false_iff.mp hs5)
      · rw [head?_append_left hk1]
        exact hk7
    | list items =>
      obtain ⟨hne, hall⟩ := hv
      intro l hl
      rw [show entryLines (k, FMValue.list items) = if items = [] then []
        else (k ++ [':']) :: items.map (fun it => strL "  - " ++ serializeAtom it)
        from rfl, if_neg hne] at hl
      rcases List.mem_cons.mp hl with rfl | hl
      · refine ⟨by simp [hk1], ?_, ?_⟩
        · apply contains_eq_false_of_forall
          intro c hc
          rcases List.mem_append.mp hc with hc | hc
          · exact fun he => absurd (he ▸ hc) (contains_eq_false_iff.mp hk5)
          · rcases List.mem_cons.mp hc with rfl | hc
            · decide
            · simp at hc
        · rw [head?_append_left hk1]
          exact hk7
      · rcases List.mem_map.mp hl with ⟨it, hit, rfl⟩
        rcases hall it hit with ⟨s, rfl, hs⟩
        obtain ⟨hs1, -, -, h4, h5, h6⟩ := hs
        rw [serializeAtom_str_unquoted h4 h5 h6]
        refine ⟨by simp [strL], ?_, ?_⟩
        · apply contains_eq_false_of_forall
          intro c hc
          rcases List.mem_append.mp hc with hc | hc
          · intro he
            subst he
            exact absurd hc (by decide)
          · exact fun he => absurd (he ▸ hc) (contains_eq_false_iff.mp h6)
        · intro hc
          rw [show ((strL "  - " ++ s).head? : Option Char) = some ' ' from rfl] at hc
          rw [Option.some.injEq] at hc
          exact absurd hc (by decide)

theorem entryLines_ne_nil {kv : Str × FMValue} (hv : WFValue kv.2) :
    entryLines kv ≠ [] := by
  cases kv with
  | mk k v =>
    cases v with
    | atom a => rw [entryLines_atom hv]; simp
    | list items =>
      obtain ⟨hne, -⟩ := hv
      rw [show entryLines (k, FMValue.list items) = if items = [] then []
        else (k ++ [':']) :: items.map (fun it => strL "  - " ++ serializeAtom it)
        from rfl, if_neg hne]
      simp

theorem serializeFrontmatter_lines_props {m : FM} (h : WFFM m) :
    ∀ l ∈ (m.map entryLines).flatten,
      l ≠ [] ∧ l.contains nlC = false ∧ l.head? ≠ some '-' := by
  intro l hl
  rcases List.mem_flatten.mp hl with ⟨sub, hsub, hlsub⟩
  rcases List.mem_map.mp hsub with ⟨kv, hkv, rfl⟩
  exact entryLines_line_props (h.2 kv hkv).1 (h.2 kv hkv).2 l hlsub

theorem serializeFrontmatter_no_pat4 {m : FM} (h : WFFM m) :
    firstOcc pat4 (serializeFrontmatter m) = none := by
  apply firstOcc_eq_none
  intro j hc
  have hprops := serializeFrontmatter_lines_props h
  apply joinNl_no_nlDash (fun l hl => (hprops l hl).2.1)
    (fun l hl => (hprops l hl).2.2) j
  exact List.IsPrefix.trans ⟨['-', '-'], rfl⟩ hc

theorem parseLinesText_serialize {m : FM} (h : WFFM m) :
    parseLinesText (serializeFrontmatter m) = m := by
  by_cases hm : m = []
  · subst hm; decide
  · have hlines : (m.map entryLines).flatten ≠ [] := by
      rcases List.exists_cons_of_ne_nil hm with ⟨kv, m', rfl⟩
      simp only [List.map_cons, List.flatten_cons, ne_eq, List.append_eq_nil]
      intro hc
      exact entryLines_ne_nil (h.2 kv (List.mem_cons_self _ _)).2 hc.1
    have hprops := serializeFrontmatter_lines_props h
    unfold parseLinesText serializeFrontmatter
    rw [splitOnNl_joinNl hlines (fun l hl => (hprops l hl).2.1)]
    have := parseGo_entries m [] none h.2 (by intro k0 its hc; cases hc)
      (by simpa using h.1)
    simpa [stOf, flushFMState] using this

/-- Round-trip of the codec on well-formed, dollar-free maps (the amended
idempotence). -/
theorem frontmatter_roundtrip (t : Str) (m : FM) (h : WFFM m)
    (hnd : (serializeFrontmatter m).contains '$' = false) :
    parseFrontmatter (updateFrontmatter t m) = m := by
  rcases updateFrontmatter_shape t m hnd with ⟨s, hs⟩
  rw [hs, parseFrontmatter_decomp _ _ (serializeFrontmatter_no_pat4 h),
    parseLinesText_serialize h]

/-! ### Claims C3, C8, C1, C2 -/

/-- C3: the codec round-trip fails as universally stated, in two independent
ways.  First, the string value `"true"` is a supported scalar shape, is
serialized bare, and is read back as the boolean `true`.  Second, the encode
step is a JS string replacement: on a document with an existing frontmatter
block, a value holding `$&` has the old matched block spliced into the new
one by the replacement expansion, so the decoded map differs. -/
theorem claim_C3_counterexample :
    parseFrontmatter (updateFrontmatter [] [(['k'], vStr (strL "true"))]) ≠
      [(['k'], vStr (strL "true"))]
    ∧ parseFrontmatter (updateFrontmatter
        (opener ++ (strL "old: 1" ++ (pat5 ++ strL "body")))
        [(['k'], vStr (strL "$&"))]) ≠
      [(['k'], vStr (strL "$&"))] :=
  ⟨by decide, by decide⟩

/-- C3 (amended): `parseFrontmatter (updateFrontmatter t m) = m` for every
document `t` and every map `m` whose keys are distinct plain keys (nonempty,
trim-stable, no colon, hash-start, dash-start or newline), whose values
are plain scalars — booleans, naturals, normalized decimal floats, strings
that are nonempty, trim-stable, hold no colon, hash, quote or newline and do
not read back as numbers or booleans — or nonempty sequences of such plain
strings, and whose serialized text holds no dollar character (the JS replace
of the encoder expands dollar placeholders in the new block). -/
theorem claim_C3_roundtrip (t : Str) (m : FM) (h : WFFM m)
    (hnd : (serializeFrontmatter m).contains '$' = false) :
    parseFrontmatter (updateFrontmatter t m) = m :=
  frontmatter_roundtrip t m h hnd

/-- Witness for C3: a map exercising every supported shape round-trips
through a document that already had unrelated content. -/
theorem claim_C3_witness :
    WFFM [(strL "title", vStr (strL "Hello world")), (strL "count", vNat 3),
        (strL "speed", FMValue.atom (.float 2 [5])), (strL "done", vBool true),
        (strL "tags", FMValue.list [.str (strL "a"), .str (strL "b")])] ∧
      parseFrontmatter (updateFrontmatter (strL "some body")
        [(strL "title", vStr (strL "Hello world")), (strL "count", vNat 3),
          (strL "speed", FMValue.atom (.float 2 [5])), (strL "done", vBool true),
          (strL "tags", FMValue.list [.str (strL "a"), .str (strL "b")])]) =
        [(strL "title", vStr (strL "Hello world")), (strL "count", vNat 3),
          (strL "speed", FMValue.atom (.float 2 [5])), (strL "done", vBool true),
          (strL "tags", FMValue.list [.str (strL "a"), .str (strL "b")])] :=
  ⟨by decide, claim_C3_roundtrip _ _ (by decide) (by decide)⟩

theorem step_junk {l : Str} (h : junkLine l = true) :
    parseLineStep ⟨[], none, []⟩ l = ⟨[], none, []⟩ := by
  unfold junkLine at h
  simp only [Bool.or_eq_true] at h
  by_cases hskip : (trim l = [] || (trim l).head? = some '#') = true
  · unfold parseLineStep
    rw [if_pos hskip]
  · have hskip' : ¬ trim l = [] ∧ ¬ (trim l).head? = some '#' := by
      rw [Bool.or_eq_true] at hskip
      push_neg at hskip
      exact ⟨fun hc => hskip.1 (by simp [hc]), fun hc => hskip.2 (by simp [hc])⟩
    by_cases hpre : (strL "- ").isPrefixOf (trim l) = true
    · unfold parseLineStep
      rw [if_neg hskip, if_pos hpre]
    · have h4 : (match firstOcc [':'] (trim l) with
          | none => true
          | some 0 => true
          | some _ => false) = true := by
        rcases h with ((h1 | h2) | h3) | h4
        · exact absurd (of_decide_eq_true h1) hskip'.1
        · exact absurd (of_decide_eq_true h2) hskip'.2
        · exact absurd h3 hpre
        · exact h4
      unfold parseLineStep
      rw [if_neg hskip, if_neg hpre]
      cases hco : firstOcc [':'] (trim l) with
      | none => rfl
      | some ci =>
        rw [hco] at h4
        cases ci with
        | zero => rfl
        | succ n => simp at h4

theorem parseLinesText_junk {g : Str} (h : (splitOnNl g).all junkLine = true) :
    parseLinesText g = [] := by
  unfold parseLinesText
  have hgen : ∀ (lines : List Str), lines.all junkLine = true →
      List.foldl parseLineStep ⟨[], none, []⟩ lines = ⟨[], none, []⟩ := by
    intro lines
    induction lines with
    | nil => intro _; rfl
    | cons l ls ih =>
      intro hall
      rw [List.all_cons, Bool.and_eq_true] at hall
      simp only [List.foldl_cons]
      rw [step_junk hall.1]
      exact ih hall.2
  rw [hgen _ h]
  rfl

/-- C8: parsing failures fail open — absent or malformed frontmatter decodes
to the empty map, and the config loader returns an empty configuration on an
empty path, a missing file, or malformed JSON; all the modelled functions
are total, so no exception reaches a caller. -/
theorem claim_C8_fail_open :
    (∀ content, fmBlockOf content = none → parseFrontmatter content = [])
    ∧ (∀ content g, fmBlockOf content = some g →
        (splitOnNl g).all junkLine = true → parseFrontmatter content = [])
    ∧ (∀ v : Vault, loadConfig v [] = {})
    ∧ (∀ (v : Vault) (p : Str), lookupVault v p = none → loadConfig v p = {})
    ∧ (∀ (v : Vault) (p : Str), lookupVault v p = some none → loadConfig v p = {}) := by
  refine ⟨?_, ?_, ?_, ?_, ?_⟩
  · intro content h
    unfold parseFrontmatter
    rw [h]
  · intro content g h hall
    unfold parseFrontmatter
    rw [h]
    exact parseLinesText_junk hall
  · intro v
    rfl
  · intro v p h
    unfold loadConfig
    by_cases hp : p = []
    · rw [if_pos hp]
    · rw [if_neg hp, h]
  · intro v p h
    unfold loadConfig
    by_cases hp : p = []
    · rw [if_pos hp]
    · rw [if_neg hp, h]

/-- Witness for C8 at concrete inputs: a fenceless document, a fenced block
of junk lines, the empty path, a missing file, and a malformed file. -/
theorem claim_C8_witness :
    parseFrontmatter (strL "plain body, no frontmatter") = []
    ∧ parseFrontmatter (opener ++ (strL "%% garbage, no colon" ++ (pat5 ++ strL "body"))) = []
    ∧ loadConfig [] [] = {}
    ∧ loadConfig [] (strL "a/.linear.json") = {}
    ∧ loadConfig [(strL "a/.linear.json", none)] (strL "a/.linear.json") = {} :=
  ⟨claim_C8_fail_open.1 _ (by decide),
    claim_C8_fail_open.2.1 _ (strL "%% garbage, no colon") (by decide) (by decide),
    claim_C8_fail_open.2.2.1 [],
    claim_C8_fail_open.2.2.2.1 [] _ (by decide),
    claim_C8_fail_open.2.2.2.2 _ _ (by decide)⟩

set_option maxRecDepth 4096 in
/-- C1 is wrong as quantified over all remote issue values: the linked-path
rewrite is a JS string replacement, which expands dollar placeholders of the
new frontmatter block.  A remote state name `$&` splices the old matched
block into the new frontmatter, so the output is not the clean
block-plus-unchanged-body the claim asserts (the early fence of the spliced
text shifts the block boundary and corrupts the body). -/
theorem claim_C1_counterexample :
    (updateNoteWithIssue
        (opener ++ (strL "linear_id: abc" ++ (pat5 ++ strL "Hello body")))
        ⟨strL "abc", strL "ENG-1", strL "T", none, strL "$&", none, strL "Core",
          strL "url", strL "c", strL "u", 2, none, [strL "bug"]⟩
        (strL "NOW") (strL "GEN")).1 ≠
      opener ++
        (serializeFrontmatter (mergeIssueFM (parseLinesText (strL "linear_id: abc"))
          ⟨strL "abc", strL "ENG-1", strL "T", none, strL "$&", none, strL "Core",
            strL "url", strL "c", strL "u", 2, none, [strL "bug"]⟩ (strL "NOW")) ++
          (pat5 ++ strL "Hello body")) := by decide

/-- C1 (amended): on an already-linked document (truthy `linear_id` in the
parsed frontmatter), whenever the merged frontmatter serializes without a
dollar character, `updateNoteWithIssue` rewrites only the frontmatter block:
the body after the closing fence is returned character-for-character
unchanged, and the note is reported as updated, not created.  Remote values
producing a dollar in the serialized block escape the guarantee: the JS
replacement expands their dollar placeholders (see the counterexample).
The technical hypothesis `hft` says the frontmatter text holds no `\n---`,
i.e. the document has a single well-delimited leading block. -/
theorem claim_C1_linked_merge_preserves_body (fmText body : Str) (issue : SyncIssue)
    (nowIso generatedBody : Str)
    (hft : firstOcc pat4 fmText = none)
    (hlinked : isTruthy (lookupFM (parseLinesText fmText) (strL "linear_id")) = true)
    (hnd : (serializeFrontmatter
      (mergeIssueFM (parseLinesText fmText) issue nowIso)).contains '$' = false) :
    updateNoteWithIssue (opener ++ (fmText ++ (pat5 ++ body))) issue nowIso generatedBody =
      (opener ++
        (serializeFrontmatter (mergeIssueFM (parseLinesText fmText) issue nowIso) ++
          (pat5 ++ body)), false) := by
  unfold updateNoteWithIssue
  simp only [parseFrontmatter_decomp _ _ hft, hlinked, Bool.not_true,
    Bool.false_eq_true, if_false]
  rw [updateFrontmatter_decomp _ _ _ hft hnd]

/-- Witness for C1: a linked note with body `Hello body` keeps its body
verbatim while the frontmatter is regenerated from the remote issue. -/
theorem claim_C1_witness :
    updateNoteWithIssue
      (opener ++ (strL "linear_id: abc" ++ (pat5 ++ strL "Hello body")))
      ⟨strL "abc", strL "ENG-1", strL "T", none, strL "Done", none, strL "Core",
        strL "url", strL "c", strL "u", 2, none, [strL "bug"]⟩
      (strL "NOW") (strL "GEN") =
      (opener ++
        (serializeFrontmatter (mergeIssueFM (parseLinesText (strL "linear_id: abc"))
          ⟨strL "abc", strL "ENG-1", strL "T", none, strL "Done", none, strL "Core",
            strL "url", strL "c", strL "u", 2, none, [strL "bug"]⟩ (strL "NOW")) ++
          (pat5 ++ strL "Hello body")), false) :=
  claim_C1_linked_merge_preserves_body _ _ _ _ _ (by decide) (by decide) (by decide)

/-- C2: conflict detection returns the empty list whenever the local state
has no last-synced timestamp, or the remote updated-timestamp is not
strictly later than it — independently of every field value. -/
theorem claim_C2_gate (issue : DIssue) (note : DNote) (content : Str) (now : Nat)
    (h : note.lastSynced = none ∨
      ∃ ts, note.lastSynced = some ts ∧ issue.updatedAt ≤ ts) :
    detectConflicts issue note content now = [] := by
  unfold detectConflicts
  rcases h with h | ⟨ts, h, hle⟩
  · rw [h]
  · rw [h]
    exact if_pos hle

/-- Witness for C2: differing titles, statuses, assignees and priorities
produce no conflict when the timestamp gate is closed, in both ways. -/
theorem claim_C2_witness :
    detectConflicts ⟨strL "id1", strL "T", none, strL "Done", none, 1, 100⟩
      ⟨none, some (strL "Todo"), some (strL "A"), some 3⟩ (strL "# Other title") 5 = []
    ∧ detectConflicts ⟨strL "id1", strL "T", none, strL "Done", none, 1, 100⟩
      ⟨some 200, some (strL "Todo"), some (strL "A"), some 3⟩ (strL "# Other title") 5 = [] :=
  ⟨claim_C2_gate _ _ _ _ (Or.inl rfl),
    claim_C2_gate _ _ _ _ (Or.inr ⟨200, rfl, by decide⟩)⟩

/-! ### Claim C10 -/

/-- What a conflict's presence in the detector's output implies about the
local side, per field. -/
theorem detect_fields {issue : DIssue} {note : DNote} {content : Str} {now : Nat}
    {c : ConflictInfo} (hc : c ∈ detectConflicts issue note content now) :
    (c.field = .title →
      ∃ t, extractTitleFromContent content = some t ∧ t ≠ [] ∧ t ≠ issue.title)
    ∧ (c.field = .status →
      ∃ st, note.status = some st ∧ st ≠ [] ∧ st ≠ issue.stateName)
    ∧ (c.field = .description →
      ∃ d, extractDescriptionFromContent content = some d ∧ some d ≠ issue.description) := by
  unfold detectConflicts at hc
  split at hc
  · exact absurd hc (List.not_mem_nil c)
  · split at hc
    · exact absurd hc (List.not_mem_nil c)
    · simp only [] at hc
      rcases List.mem_append.mp hc with hc | h5
      rcases List.mem_append.mp hc with hc | h4
      rcases List.mem_append.mp hc with hc | h3
      rcases List.mem_append.mp hc with h1 | h2
      · split at h1
        · split at h1
          · rename_i t hext hcond
            have := List.mem_singleton.mp h1
            subst this
            exact ⟨fun _ => ⟨t, hext, hcond⟩,
              fun hf => CField.noConfusion hf, fun hf => CField.noConfusion hf⟩
          · exact absurd h1 (List.not_mem_nil c)
        · exact absurd h1 (List.not_mem_nil c)
      · split at h2
        · split at h2
          · rename_i st hst hcond
            have := List.mem_singleton.mp h2
            subst this
            exact ⟨fun hf => CField.noConfusion hf,
              fun _ => ⟨st, hst, hcond⟩, fun hf => CField.noConfusion hf⟩
          · exact absurd h2 (List.not_mem_nil c)
        · exact absurd h2 (List.not_mem_nil c)
      · split at h3
        · have := List.mem_singleton.mp h3
          subst this
          exact ⟨fun hf => CField.noConfusion hf, fun hf => CField.noConfusion hf,
            fun hf => CField.noConfusion hf⟩
        · exact absurd h3 (List.not_mem_nil c)
      · split at h4
        · have := List.mem_singleton.mp h4
          subst this
          exact ⟨fun hf => CField.noConfusion hf, fun hf => CField.noConfusion hf,
            fun hf => CField.noConfusion hf⟩
        · exact absurd h4 (List.not_mem_nil c)
      · split at h5
        · split at h5
          · rename_i d hdesc hcond
            have := List.mem_singleton.mp h5
            subst this
            exact ⟨fun hf => CField.noConfusion hf, fun hf => CField.noConfusion hf,
              fun _ => ⟨d, hdesc, hcond⟩⟩
          · exact absurd h5 (List.not_mem_nil c)
        · exact absurd h5 (List.not_mem_nil c)

/-- C10: when the local side lacks a value for the title (no first heading,
or a heading trimming to empty), the status (no or empty `linear_status`),
or the description (body empty after stripping frontmatter, heading and
trailer), no conflict for that field is ever emitted, whatever the remote
side holds. -/
theorem claim_C10_local_absence (issue : DIssue) (note : DNote) (content : Str) (now : Nat) :
    ((extractTitleFromContent content = none ∨ extractTitleFromContent content = some []) →
      ∀ c ∈ detectConflicts issue note content now, c.field ≠ CField.title)
    ∧ ((note.status = none ∨ note.status = some []) →
      ∀ c ∈ detectConflicts issue note content now, c.field ≠ CField.status)
    ∧ (extractDescriptionFromContent content = none →
      ∀ c ∈ detectConflicts issue note content now, c.field ≠ CField.description) := by
  refine ⟨?_, ?_, ?_⟩
  · rintro h c hc hf
    rcases (detect_fields hc).1 hf with ⟨t, ht, htne, -⟩
    rcases h with h | h <;> rw [h] at ht
    · cases ht
    · injection ht with ht'
      exact htne ht'.symm
  · rintro h c hc hf
    rcases (detect_fields hc).2.1 hf with ⟨st, hst, hstne, -⟩
    rcases h with h | h <;> rw [h] at hst
    · cases hst
    · injection hst with hst'
      exact hstne hst'.symm
  · rintro h c hc hf
    rcases (detect_fields hc).2.2 hf with ⟨d, hd, -⟩
    rw [h] at hd
    cases hd

/-- Witness for C10: an empty body with no `linear_status` still produces an
assignee conflict, and that conflict is for none of the three suppressed
fields. -/
theorem claim_C10_witness :
    (⟨strL "id", CField.assignee, CVal.s (strL "X"), CVal.null, 7⟩ : ConflictInfo).field ≠
      CField.title
    ∧ (⟨strL "id", CField.assignee, CVal.s (strL "X"), CVal.null, 7⟩ : ConflictInfo).field ≠
      CField.status
    ∧ (⟨strL "id", CField.assignee, CVal.s (strL "X"), CVal.null, 7⟩ : ConflictInfo).field ≠
      CField.description :=
  ⟨(claim_C10_local_absence ⟨strL "id", strL "T", some (strL "D"), strL "Done",
      some (strL "X"), 1, 5⟩ ⟨some 0, none, none, none⟩ [] 7).1 (Or.inl (by decide)) _
      (by decide),
    (claim_C10_local_absence ⟨strL "id", strL "T", some (strL "D"), strL "Done",
      some (strL "X"), 1, 5⟩ ⟨some 0, none, none, none⟩ [] 7).2.1 (Or.inl rfl) _
      (by decide),
    (claim_C10_local_absence ⟨strL "id", strL "T", some (strL "D"), strL "Done",
      some (strL "X"), 1, 5⟩ ⟨some 0, none, none, none⟩ [] 7).2.2 (by decide) _
      (by decide)⟩

/-! ### Claims C6 and C7 -/

/-- C6: the modal's `resolveSelected` is all-or-nothing — a winner map is
handed to `onResolve` only when every conflict of the batch carries a truthy
winner, and a batch with any unresolved conflict is refused. -/
theorem claim_C6_all_or_nothing :
    (∀ (conflicts : List ConflictInfo) (sel out : SelMap),
      resolveSelected conflicts sel = some out →
      ∀ c ∈ conflicts, (selFor out (conflictKey c)).isSome = true)
    ∧ (∀ (conflicts : List ConflictInfo) (sel : SelMap),
      (∃ c ∈ conflicts, selFor sel (conflictKey c) = none) →
      resolveSelected conflicts sel = none) := by
  constructor
  · intro conflicts sel out h c hc
    unfold resolveSelected at h
    by_cases hall : conflicts.all (fun c => (selFor sel (conflictKey c)).isSome) = true
    · rw [if_pos hall] at h
      injection h with h'
      subst h'
      exact List.all_eq_true.mp hall c hc
    · rw [if_neg hall] at h
      cases h
  · rintro conflicts sel ⟨c, hc, hnone⟩
    unfold resolveSelected
    rw [if_neg]
    intro hall
    have := List.all_eq_true.mp hall c hc
    rw [hnone] at this
    cases this

/-- Witness for C6: a fully-selected singleton batch resolves with its key
assigned, and a batch of three conflicts with only two winners is refused. -/
theorem claim_C6_witness :
    (selFor [(strL "a-title", some Winner.linear)]
      (conflictKey ⟨strL "a", CField.title, CVal.null, CVal.null, 0⟩)).isSome = true
    ∧ resolveSelected
      [⟨strL "a", CField.title, CVal.null, CVal.null, 0⟩,
        ⟨strL "b", CField.title, CVal.null, CVal.null, 0⟩,
        ⟨strL "c", CField.title, CVal.null, CVal.null, 0⟩]
      [(strL "a-title", some Winner.linear), (strL "b-title", some Winner.obsidian)] =
      none :=
  ⟨claim_C6_all_or_nothing.1 [⟨strL "a", CField.title, CVal.null, CVal.null, 0⟩]
      [(strL "a-title", some Winner.linear)] [(strL "a-title", some Winner.linear)]
      (by decide) _ (by decide),
    claim_C6_all_or_nothing.2 _ _
      ⟨⟨strL "c", CField.title, CVal.null, CVal.null, 0⟩, by decide, by decide⟩⟩

theorem lookupAssoc_setAssoc_self {β : Type} (m : List (Str × β)) (k : Str) (v : β) :
    lookupAssoc (setAssoc m k v) k = some v := by
  induction m with
  | nil => simp [setAssoc, lookupAssoc]
  | cons kv t ih =>
    cases kv with
    | mk k' v' =>
      by_cases h : k' = k
      · subst h
        simp [setAssoc, lookupAssoc]
      · simp [setAssoc, lookupAssoc, h, ih]

theorem lookupAssoc_setAssoc_ne {β : Type} (m : List (Str × β)) (k k' : Str) (v : β)
    (h : k' ≠ k) : lookupAssoc (setAssoc m k v) k' = lookupAssoc m k' := by
  induction m with
  | nil =>
    have hne : ¬ k = k' := fun he => h he.symm
    simp [setAssoc, lookupAssoc, hne]
  | cons kv t ih =>
    cases kv with
    | mk k0 v0 =>
      by_cases h0 : k0 = k
      · subst h0
        have hne : ¬ k0 = k' := fun he => h he.symm
        simp [setAssoc, lookupAssoc, hne]
      · simp only [setAssoc, if_neg h0]
        by_cases h1 : k0 = k'
        · subst h1
          simp [lookupAssoc]
        · simp [lookupAssoc, h1, ih]

theorem lookup_foldl_set {β : Type} (w : β) :
    ∀ (l : List ConflictInfo) (m : List (Str × β)) (k : Str),
      (lookupAssoc m k = some w ∨ ∃ c ∈ l, conflictKey c = k) →
      lookupAssoc (l.foldl (fun acc c => setAssoc acc (conflictKey c) w) m) k = some w := by
  intro l
  induction l with
  | nil =>
    intro m k h
    rcases h with h | ⟨c, hc, -⟩
    · exact h
    · simp at hc
  | cons c0 l ih =>
    intro m k h
    simp only [List.foldl_cons]
    apply ih
    rcases h with h | ⟨c, hc, hk⟩
    · left
      by_cases he : k = conflictKey c0
      · subst he
        exact lookupAssoc_setAssoc_self m _ w
      · rw [lookupAssoc_setAssoc_ne _ _ _ _ he]
        exact h
    · rcases List.mem_cons.mp hc with rfl | hc'
      · left
        subst hk
        exact lookupAssoc_setAssoc_self m _ w
      · right
        exact ⟨c, hc', hk⟩

theorem lookup_createResolutionMap {conflicts : List ConflictInfo} {w : Winner}
    {c : ConflictInfo} (hc : c ∈ conflicts) :
    lookupAssoc (createResolutionMap conflicts w) (conflictKey c) = some w :=
  lookup_foldl_set w conflicts [] _ (Or.inr ⟨c, hc, rfl⟩)

/-- C7: under `linear-wins` every conflict's key maps to the Linear winner,
under `obsidian-wins` to the Obsidian winner, and under `timestamp` the
implementation degrades to the Linear winner — unconditionally on the
conflict's values. -/
theorem claim_C7_policy_winners (conflicts : List ConflictInfo) (modalResult : ResMap)
    (c : ConflictInfo) (hc : c ∈ conflicts) :
    lookupAssoc (resolveConflicts .linearWins conflicts modalResult) (conflictKey c) =
      some Winner.linear
    ∧ lookupAssoc (resolveConflicts .obsidianWins conflicts modalResult) (conflictKey c) =
      some Winner.obsidian
    ∧ lookupAssoc (resolveConflicts .timestamp conflicts modalResult) (conflictKey c) =
      some Winner.linear :=
  ⟨lookup_createResolutionMap hc, lookup_createResolutionMap hc,
    lookup_createResolutionMap hc⟩

/-! ### Claim C5 -/

theorem findConfigAux_eq (v : Vault) :
    ∀ (fuel : Nat) (d : Str),
      findConfigAux v fuel d =
        (((dirChain fuel d).map cfgPathIn).find? (fun p => hasVaultFile v p)).getD [] := by
  intro fuel
  induction fuel with
  | zero =>
    intro d
    by_cases h : hasVaultFile v cfgFileName = true
    · simp [findConfigAux, dirChain, cfgPathIn, List.find?, h]
    · simp [findConfigAux, dirChain, cfgPathIn, List.find?, h]
  | succ fuel ih =>
    intro d
    by_cases hd : d = []
    · subst hd
      by_cases h : hasVaultFile v cfgFileName = true
      · simp [findConfigAux, dirChain, cfgPathIn, List.find?, h]
      · simp [findConfigAux, dirChain, cfgPathIn, List.find?, h]
    · by_cases hcp : hasVaultFile v (d ++ '/' :: cfgFileName) = true
      · simp [findConfigAux, dirChain, cfgPathIn, List.find?, hd, hcp]
      · simp only [findConfigAux, dirChain, cfgPathIn, if_neg hd, hcp, if_false,
          Bool.false_eq_true, List.map_cons, List.find?_cons_of_neg _ hcp]
        exact ih (getDirectoryPath d)

/-- C5: the resolver is the nearest-ancestor rule — `getConfigForNote` loads
exactly the file `findConfigPath` resolves, that path is the first existing
`.linear.json` along the folder chain from the note's folder up to the root
with no merging, and a nested configuration shadows an enclosing one. -/
theorem claim_C5_nearest_ancestor :
    (∀ (v : Vault) (p : Str), getConfigForNote v p = loadConfig v (findConfigPath v p))
    ∧ (∀ (v : Vault) (p : Str), findConfigPath v p = nearestConfigPath v p)
    ∧ getConfigForNote
        [(strL "/a/.linear.json", some { team := some (strL "X") }),
          (strL "/a/b/.linear.json", some { team := some (strL "Y") })]
        (strL "/a/b/note.md") = { team := some (strL "Y") } := by
  refine ⟨fun v p => rfl, fun v p => ?_, by decide⟩
  unfold findConfigPath nearestConfigPath
  exact findConfigAux_eq v _ _

/-- Witness for C7 on a concrete two-conflict batch. -/
theorem claim_C7_witness :
    lookupAssoc (resolveConflicts .linearWins
      [⟨strL "a", CField.title, CVal.null, CVal.null, 0⟩,
        ⟨strL "b", CField.status, CVal.null, CVal.null, 0⟩] [])
      (conflictKey ⟨strL "b", CField.status, CVal.null, CVal.null, 0⟩) =
      some Winner.linear
    ∧ lookupAssoc (resolveConflicts .obsidianWins
      [⟨strL "a", CField.title, CVal.null, CVal.null, 0⟩,
        ⟨strL "b", CField.status, CVal.null, CVal.null, 0⟩] [])
      (conflictKey ⟨strL "b", CField.status, CVal.null, CVal.null, 0⟩) =
      some Winner.obsidian
    ∧ lookupAssoc (resolveConflicts .timestamp
      [⟨strL "a", CField.title, CVal.null, CVal.null, 0⟩,
        ⟨strL "b", CField.status, CVal.null, CVal.null, 0⟩] [])
      (conflictKey ⟨strL "b", CField.status, CVal.null, CVal.null, 0⟩) =
      some Winner.linear :=
  claim_C7_policy_winners _ _ _ (by decide)

/-! ### Claim C4 -/

theorem labelFold_of_not_any (ts : List InlineTag) (h : anyLabel ts = false) :
    ∀ acc, labelFold ts acc = acc := by
  induction ts with
  | nil => intro acc; rfl
  | cons t ts ih =>
    intro acc
    simp only [anyLabel, List.any_cons, Bool.or_eq_false_iff, decide_eq_false_iff_not] at h
    obtain ⟨h1, h2⟩ := h
    simp only [labelFold, if_neg h1]
    exact ih (by simpa [anyLabel] using h2) acc

theorem foldl_applyTag_assignee (ts : List InlineTag) :
    ∀ cfg : LinearNoteConfig, (ts.foldl applyTag cfg).assignee =
      ((lastScalarTag .assignee ts).map some).getD cfg.assignee := by
  induction ts with
  | nil => intro cfg; rfl
  | cons t ts ih =>
    intro cfg
    simp only [List.foldl_cons]
    rw [ih (applyTag cfg t)]
    cases hls : lastScalarTag .assignee ts with
    | some v => simp [lastScalarTag, hls]
    | none => cases htt : t.ttype <;> simp [lastScalarTag, applyTag, hls, htt] <;> split <;> rfl

theorem foldl_applyTag_priority (ts : List InlineTag) :
    ∀ cfg : LinearNoteConfig, (ts.foldl applyTag cfg).priority =
      ((lastPriorityTag ts).map some).getD cfg.priority := by
  induction ts with
  | nil => intro cfg; rfl
  | cons t ts ih =>
    intro cfg
    simp only [List.foldl_cons]
    rw [ih (applyTag cfg t)]
    cases hls : lastScalarTag .priority ts with
    | some v => simp [lastPriorityTag, lastScalarTag, hls]
    | none =>
      cases htt : t.ttype <;>
        simp [lastPriorityTag, lastScalarTag, applyTag, hls, htt] <;> split <;> rfl

theorem foldl_applyTag_project (ts : List InlineTag) :
    ∀ cfg : LinearNoteConfig, (ts.foldl applyTag cfg).project =
      ((lastScalarTag .project ts).map some).getD cfg.project := by
  induction ts with
  | nil => intro cfg; rfl
  | cons t ts ih =>
    intro cfg
    simp only [List.foldl_cons]
    rw [ih (applyTag cfg t)]
    cases hls : lastScalarTag .project ts with
    | some v => simp [lastScalarTag, hls]
    | none => cases htt : t.ttype <;> simp [lastScalarTag, applyTag, hls, htt] <;> split <;> rfl

theorem foldl_applyTag_untouched (ts : List InlineTag) :
    ∀ cfg : LinearNoteConfig,
      (ts.foldl applyTag cfg).team = cfg.team
      ∧ (ts.foldl applyTag cfg).workspace = cfg.workspace
      ∧ (ts.foldl applyTag cfg).autoSync = cfg.autoSync
      ∧ (ts.foldl applyTag cfg).template = cfg.template := by
  induction ts with
  | nil => intro cfg; exact ⟨rfl, rfl, rfl, rfl⟩
  | cons t ts ih =>
    intro cfg
    simp only [List.foldl_cons]
    obtain ⟨h1, h2, h3, h4⟩ := ih (applyTag cfg t)
    have ht : (applyTag cfg t).team = cfg.team
        ∧ (applyTag cfg t).workspace = cfg.workspace
        ∧ (applyTag cfg t).autoSync = cfg.autoSync
        ∧ (applyTag cfg t).template = cfg.template := by
      cases htt : t.ttype <;> simp [applyTag, htt] <;> split <;> simp
    exact ⟨h1.trans ht.1, h2.trans ht.2.1, h3.trans ht.2.2.1, h4.trans ht.2.2.2⟩

theorem foldl_applyTag_labels (ts : List InlineTag) :
    ∀ cfg : LinearNoteConfig, (ts.foldl applyTag cfg).labels =
      if anyLabel ts then some (labelFold ts (cfg.labels.getD [])) else cfg.labels := by
  induction ts with
  | nil => intro cfg; rfl
  | cons t ts ih =>
    intro cfg
    simp only [List.foldl_cons]
    rw [ih (applyTag cfg t)]
    cases htt : t.ttype
    case label =>
      have hlab : (applyTag cfg t).labels =
          some (labelAcc (cfg.labels.getD []) t.value) := by
        simp only [applyTag, htt, labelAcc]
        split <;> rfl
      rw [hlab]
      have hanyc : anyLabel (t :: ts) = true := by simp [anyLabel, htt]
      have hfold : labelFold (t :: ts) (cfg.labels.getD []) =
          labelFold ts (labelAcc (cfg.labels.getD []) t.value) := by
        simp [labelFold, htt]
      rw [if_pos hanyc, hfold]
      by_cases hany : anyLabel ts = true
      · rw [if_pos hany]
        rfl
      · rw [if_neg hany]
        rw [labelFold_of_not_any ts (by simpa using hany)]
    all_goals {
      have hlab : (applyTag cfg t).labels = cfg.labels := by simp [applyTag, htt]
      rw [hlab]
      have hany : anyLabel (t :: ts) = anyLabel ts := by simp [anyLabel, htt]
      have hfold : labelFold (t :: ts) (cfg.labels.getD []) =
          labelFold ts (cfg.labels.getD []) := by
        simp [labelFold, htt]
      rw [hany, hfold]
    }

/-! ### Claim C9 -/

theorem mem_trim {c : Char} {s : Str} (h : c ∈ trim s) : c ∈ s := by
  unfold trim trimR trimL at h
  have h1 := List.mem_reverse.mp h
  have h2 := (List.dropWhile_sublist _).subset h1
  have h3 := List.mem_reverse.mp h2
  exact (List.dropWhile_sublist _).subset h3

theorem exprRestAux_chars :
    ∀ (fuel : Nat) (s : Str) (c : Char), c ∈ exprRestAux fuel s →
      isWs c = true ∨ exprWordPred c = true := by
  intro fuel
  induction fuel with
  | zero => intro s c h; exact absurd h (List.not_mem_nil c)
  | succ fuel ih =>
    intro s c h
    simp only [exprRestAux] at h
    split at h
    · exact absurd h (List.not_mem_nil c)
    · split at h
      · exact absurd h (List.not_mem_nil c)
      · rcases List.mem_append.mp h with h | h
        · rcases List.mem_append.mp h with h | h
          · exact Or.inl (List.mem_takeWhile_imp h)
          · exact Or.inr (List.mem_takeWhile_imp h)
        · exact ih _ c h

theorem exprValueAt_chars {s v : Str} {len : Nat} (h : exprValueAt s = some (v, len)) :
    ∀ c ∈ v, isWs c = true ∨ exprWordPred c = true := by
  intro c hc
  simp only [exprValueAt] at h
  split at h
  · cases h
  · injection h with h2
    have hv : s.takeWhile exprWordPred ++
        exprRestAux (s.length + 1) (s.drop (s.takeWhile exprWordPred).length) = v :=
      congrArg Prod.fst h2
    rw [← hv] at hc
    rcases List.mem_append.mp hc with h | h
    · exact Or.inr (List.mem_takeWhile_imp h)
    · exact exprRestAux_chars _ _ c h

theorem scanExprsAux_mem (kw : Str) :
    ∀ (fuel : Nat) (s v : Str), v ∈ scanExprsAux kw fuel s →
      ∃ (s0 v0 : Str) (len : Nat), exprValueAt s0 = some (v0, len) ∧ v = trim v0 := by
  intro fuel
  induction fuel with
  | zero => intro s v h; exact absurd h (List.not_mem_nil v)
  | succ fuel ih =>
    intro s v h
    cases s with
    | nil => exact absurd h (List.not_mem_nil v)
    | cons a s0 =>
      simp only [scanExprsAux] at h
      split at h
      · split at h
        · rename_i v0 len heq
          rcases List.mem_append.mp h with h | h
          · split at h
            · have := List.mem_singleton.mp h
              exact ⟨_, v0, len, heq, this⟩
            · exact absurd h (List.not_mem_nil v)
          · exact ih _ v h
        · exact ih _ v h
      · exact ih _ v h

theorem mem_insertTag {x y : InlineTag} {l : List InlineTag} (h : x ∈ insertTag y l) :
    x = y ∨ x ∈ l := by
  induction l with
  | nil =>
    simp only [insertTag] at h
    exact Or.inl (List.mem_singleton.mp h)
  | cons z zs ih =>
    simp only [insertTag] at h
    split at h
    · rcases List.mem_cons.mp h with h | h
      · exact Or.inl h
      · exact Or.inr h
    · rcases List.mem_cons.mp h with h | h
      · exact Or.inr (h ▸ List.mem_cons_self z zs)
      · rcases ih h with h | h
        · exact Or.inl h
        · exact Or.inr (List.mem_cons_of_mem z h)

theorem mem_sortTags {x : InlineTag} {l : List InlineTag} (h : x ∈ sortTags l) : x ∈ l := by
  induction l with
  | nil => exact absurd h (List.not_mem_nil x)
  | cons y ys ih =>
    simp only [sortTags] at h
    rcases mem_insertTag h with h | h
    · exact h ▸ List.mem_cons_self y ys
    · exact List.mem_cons_of_mem y (ih h)

theorem scanTagsAux_value_chars (pre : Str) (p : Char → Bool) (tt : TagType) :
    ∀ (fuel pos : Nat) (s : Str) (t : InlineTag),
      t ∈ scanTagsAux pre p tt fuel pos s → ∀ c ∈ t.value, p c = true := by
  intro fuel
  induction fuel with
  | zero => intro pos s t h; exact absurd h (List.not_mem_nil t)
  | succ fuel ih =>
    intro pos s t h
    cases s with
    | nil => exact absurd h (List.not_mem_nil t)
    | cons a s0 =>
      simp only [scanTagsAux] at h
      split at h
      · split at h
        · rcases List.mem_cons.mp h with h | h
          · subst h
            intro c hc
            exact List.mem_takeWhile_imp hc
          · exact ih _ _ t h
        · exact ih _ _ t h
      · exact ih _ _ t h

/-- C9 is wrong for the structured-text parser: each of its tag patterns
captures a nonempty run of non-whitespace characters, so matching stops at
the first space — `@assignee/John Doe` yields the value `John`, not
`John Doe`. -/
theorem claim_C9_counterexample :
    (parseInlineTags (strL "@assignee/John Doe")).map InlineTag.value =
      [strL "John"] := by decide

/-- C9 (amended): the whitespace-spanning capture belongs to the issue
modal's expression parser, whose values never contain the at sign and do
span internal whitespace (`@assignee/John Doe` gives `John Doe`); the
structured-text parser's tag values, by contrast, never contain any
whitespace character. -/
theorem claim_C9_values :
    (∀ (kw : String) (content v : Str),
      v ∈ parseInlineExpressionsFor kw content → ∀ c ∈ v, c ≠ '@')
    ∧ (∀ (content : Str) (t : InlineTag),
      t ∈ parseInlineTags content → ∀ c ∈ t.value, isWs c = false)
    ∧ parseInlineExpressionsFor "@assignee/" (strL "@assignee/John Doe") =
      [strL "John Doe"] := by
  refine ⟨?_, ?_, by decide⟩
  · intro kw content v hv c hc
    obtain ⟨s0, v0, len, heq, hveq⟩ := scanExprsAux_mem (strL kw) _ content v hv
    subst hveq
    rcases exprValueAt_chars heq c (mem_trim hc) with h | h
    · intro he
      subst he
      exact absurd h (by decide)
    · intro he
      subst he
      exact absurd h (by decide)
  · intro content t ht c hc
    unfold parseInlineTags at ht
    have ht' := mem_sortTags ht
    rcases List.mem_append.mp ht' with h | h
    rcases List.mem_append.mp h with h | h
    rcases List.mem_append.mp h with h | h
    rcases List.mem_append.mp h with h | h
    · have hp := scanTagsAux_value_chars _ _ _ _ _ _ _ h c hc
      simpa using hp
    · have hp := scanTagsAux_value_chars _ _ _ _ _ _ _ h c hc
      simpa using hp
    · exact isWs_eq_false_of_isDigit (scanTagsAux_value_chars _ _ _ _ _ _ _ h c hc)
    · have hp := scanTagsAux_value_chars _ _ _ _ _ _ _ h c hc
      simp only [Bool.and_eq_true] at hp
      simpa using hp.1
    · have hp := scanTagsAux_value_chars _ _ _ _ _ _ _ h c hc
      simpa using hp

/-- Witness for C9 (amended) at concrete inputs: the modal value
`John Doe` scanned from `@assignee/John Doe` does not contain an at sign
at its first character, and the tag value `John` scanned by the
structured-text parser has no whitespace at its first character. -/
theorem claim_C9_witness :
    ('J' ≠ '@') ∧ isWs 'J' = false :=
  ⟨claim_C9_values.1 "@assignee/" (strL "@assignee/John Doe") (strL "John Doe")
      (by decide) 'J' (by decide),
    claim_C9_values.2.1 (strL "@assignee/John Doe")
      ⟨TagType.assignee, strL "John", 0, 14⟩ (by decide) 'J' (by decide)⟩

/-- C4 is wrong about the scalar kinds: the structured-text parser has no
team tag pattern at all and its merge switch has no status case, so a
block-level team is never overridden by an inline tag — here block
`team: X` plus inline `@team/Y` yields team `X`, not `Y`. -/
theorem claim_C4_counterexample :
    (parseNoteConfig (strL "---\nlinear_config:\n  team: X\n---\n@team/Y\n")).team =
      some (strL "X") := by decide

/-- C4 (amended): block values are applied first and inline tags override
them, with last-of-a-kind winning, only for the kinds assignee, priority
and project; label tags accumulate into a deduplicated list over the block
labels in order of first occurrence; team, workspace, autoSync and template
are never overridden (there is no team tag pattern and status tags are
dropped by the merge).  The claim's two examples hold: block
`assignee: Alice` plus inline `@assignee/Bob` gives Bob, and
`#bug #bug #urgent` gives labels [bug, urgent]. -/
theorem claim_C4_merge :
    (∀ content : Str,
      (parseNoteConfig content).assignee =
        ((lastScalarTag .assignee (parseInlineTags content)).map some).getD
          (parseNoteConfigBlock content).assignee
      ∧ (parseNoteConfig content).priority =
        ((lastPriorityTag (parseInlineTags content)).map some).getD
          (parseNoteConfigBlock content).priority
      ∧ (parseNoteConfig content).project =
        ((lastScalarTag .project (parseInlineTags content)).map some).getD
          (parseNoteConfigBlock content).project
      ∧ (parseNoteConfig content).labels =
        (if anyLabel (parseInlineTags content) then
          some (labelFold (parseInlineTags content)
            ((parseNoteConfigBlock content).labels.getD []))
        else (parseNoteConfigBlock content).labels)
      ∧ (parseNoteConfig content).team = (parseNoteConfigBlock content).team
      ∧ (parseNoteConfig content).workspace = (parseNoteConfigBlock content).workspace
      ∧ (parseNoteConfig content).autoSync = (parseNoteConfigBlock content).autoSync
      ∧ (parseNoteConfig content).template = (parseNoteConfigBlock content).template)
    ∧ (parseNoteConfig
        (strL "---\nlinear_config:\n  assignee: Alice\n---\n@assignee/Bob\n")).assignee =
      some (strL "Bob")
    ∧ (parseNoteConfig (strL "#bug #bug #urgent")).labels =
      some [strL "bug", strL "urgent"] := by
  refine ⟨fun content => ?_, by decide, by decide⟩
  obtain ⟨h1, h2, h3, h4⟩ := foldl_applyTag_untouched (parseInlineTags content)
    (parseNoteConfigBlock content)
  exact ⟨foldl_applyTag_assignee _ _, foldl_applyTag_priority _ _,
    foldl_applyTag_project _ _, foldl_applyTag_labels _ _, h1, h2, h3, h4⟩

end LinearSync
